import Mathlib

/-!
# Verification of `cmd/dcrinstall/util.go`

The development embeds the version extractor (`relRE`, `extractSemVer`), the
canonical version string built in `extract`, and the control flow of
`pgpVerify`.

* Go strings are modelled by `String`; the matcher works on the list of
  characters.  Every character class of `relRE` is ASCII, so a matched
  substring is the same text whether the input is read as bytes or as runes.
* `regexp` is modelled by a backtracking matcher with priorities: Go documents
  that among the leftmost matches it returns the one a backtracking search
  finds first.
* `uint32` fields are natural numbers reduced modulo `2 ^ 32`.
-/

namespace Dcrinstall

/-! ## Regular expressions: syntax -/

/-- Regular expression syntax, as far as `relRE` uses it.  `cls` is a bracket
class given by its inclusive ranges, `opt` and `star` are the greedy `?` and
`*`, and `group n` is the capturing group with index `n`. -/
inductive Re where
  | lit (c : Char)
  | cls (ranges : List (Char × Char))
  | seq (a b : Re)
  | alt (a b : Re)
  | opt (a : Re)
  | star (a : Re)
  | group (n : Nat) (a : Re)
  deriving Repr, DecidableEq

/-- Membership of a character in a bracket class. -/
def inClass (ranges : List (Char × Char)) (c : Char) : Bool :=
  ranges.any (fun r => decide (r.1.toNat ≤ c.toNat) && decide (c.toNat ≤ r.2.toNat))

/-- The greedy `+`: one occurrence followed by `*`. -/
def Re.plus (a : Re) : Re := Re.seq a (Re.star a)

/-- A literal word, character by character. -/
def Re.word : List Char → Re
  | [] => Re.opt (Re.cls [])
  | [c] => Re.lit c
  | c :: cs => Re.seq (Re.lit c) (Re.word cs)

/-! ## Regular expressions: the backtracking matcher -/

/-- Matcher state: the unread input and the captures recorded so far, most
recent first. -/
structure MState where
  rest : List Char
  caps : List (Nat × List Char)
  deriving Repr, DecidableEq

/-- First alternative that succeeds. -/
def orElse (a b : Option MState) : Option MState :=
  match a with
  | some r => some r
  | none => b

/-- Greedy iteration of `body`, with the continuation `k` run after the last
iteration.  One more iteration is preferred to stopping; an iteration has to
consume input.  The counter bounds the number of iterations by the length of
the unread input. -/
def starLoop (body : MState → (MState → Option MState) → Option MState) :
    Nat → MState → (MState → Option MState) → Option MState
  | 0, st, k => k st
  | n + 1, st, k =>
    orElse
      (body st (fun st' =>
        if st'.rest.length < st.rest.length then starLoop body n st' k else none))
      (k st)

/-- State after group `n` closes: the text read between `st` and `st'` is
recorded as its capture. -/
def withCap (n : Nat) (st st' : MState) : MState :=
  { st' with caps := (n, st.rest.take (st.rest.length - st'.rest.length)) :: st'.caps }

/-- Backtracking match of `re` at the head of `st.rest`, then `k`.  In `alt`
the left branch has priority, `opt` and `star` prefer to match. -/
def run : Re → MState → (MState → Option MState) → Option MState
  | .lit c, st, k =>
    match st.rest with
    | [] => none
    | x :: xs => if x = c then k { st with rest := xs } else none
  | .cls rs, st, k =>
    match st.rest with
    | [] => none
    | x :: xs => if inClass rs x then k { st with rest := xs } else none
  | .seq a b, st, k => run a st (fun st' => run b st' k)
  | .alt a b, st, k => orElse (run a st k) (run b st k)
  | .opt a, st, k => orElse (run a st k) (k st)
  | .star a, st, k => starLoop (run a) st.rest.length st k
  | .group n a, st, k =>
    run a st (fun st' => k (withCap n st st'))

/-- Match anchored at the head of the input. -/
def matchAt (re : Re) (input : List Char) : Option MState :=
  run re ⟨input, []⟩ some

/-- Leftmost search: the first start position at which `re` matches.  Returns
the text from that position on and the final matcher state. -/
def search (re : Re) : List Char → Option (List Char × MState)
  | [] => (matchAt re []).map (fun st => ([], st))
  | c :: cs =>
    match matchAt re (c :: cs) with
    | some st => some (c :: cs, st)
    | none => search re cs

/-- Text of capture `n`: the most recent recording, or empty when the group
did not take part in the match. -/
def capture (caps : List (Nat × List Char)) (n : Nat) : List Char :=
  match caps with
  | [] => []
  | (m, w) :: rest => if m = n then w else capture rest n

/-- Model of `(*Regexp).FindStringSubmatch`: the empty slice when there is no
match, else the whole match followed by the text of groups `1..ngroups`. -/
def FindStringSubmatch (re : Re) (ngroups : Nat) (s : String) : List String :=
  match search re s.data with
  | none => []
  | some (from_, st) =>
    String.mk (from_.take (from_.length - st.rest.length)) ::
      (List.range ngroups).map (fun i => String.mk (capture st.caps (i + 1)))

/-! ## The release pattern -/

/-- Class `\d`. -/
def digitC : Re := Re.cls [('0', '9')]

/-- Class `[1-9]`. -/
def nonzeroC : Re := Re.cls [('1', '9')]

/-- Class `[a-zA-Z-]`. -/
def letterC : Re := Re.cls [('a', 'z'), ('A', 'Z'), ('-', '-')]

/-- Class `[0-9a-zA-Z-]`. -/
def alnumC : Re := Re.cls [('0', '9'), ('a', 'z'), ('A', 'Z'), ('-', '-')]

/-- Pattern `0|[1-9]\d*`. -/
def numRe : Re := Re.alt (Re.lit '0') (Re.seq nonzeroC (Re.star digitC))

/-- Pattern `0|[1-9]\d*|\d*[a-zA-Z-][0-9a-zA-Z-]*`. -/
def identRe : Re :=
  Re.alt (Re.lit '0')
    (Re.alt (Re.seq nonzeroC (Re.star digitC))
      (Re.seq (Re.star digitC) (Re.seq letterC (Re.star alnumC))))

/-- Pattern `(-(ident)(\.(ident))*)?`, groups 5 to 8. -/
def preRe : Re :=
  Re.opt (Re.group 5
    (Re.seq (Re.lit '-')
      (Re.seq (Re.group 6 identRe)
        (Re.star (Re.group 7 (Re.seq (Re.lit '.') (Re.group 8 identRe)))))))

/-- Pattern `(\+[0-9a-zA-Z-]+(\.[0-9a-zA-Z-]+)*)?`, groups 9 and 10. -/
def buildRe : Re :=
  Re.opt (Re.group 9
    (Re.seq (Re.lit '+')
      (Re.seq (Re.plus alnumC)
        (Re.star (Re.group 10 (Re.seq (Re.lit '.') (Re.plus alnumC)))))))

/-- Pattern `(v|release-v)?`, group 1. -/
def prefixRe : Re :=
  Re.opt (Re.group 1 (Re.alt (Re.lit 'v') (Re.word "release-v".data)))

/-- The pattern `relRE` of the source, groups numbered by their opening
parenthesis. -/
def relRE : Re :=
  Re.seq prefixRe
    (Re.seq (Re.group 2 numRe)
      (Re.seq (Re.lit '.')
        (Re.seq (Re.group 3 numRe)
          (Re.seq (Re.lit '.')
            (Re.seq (Re.group 4 numRe)
              (Re.seq preRe buildRe))))))

/-! ## `strconv.ParseInt` in base 10 with bit size 32 -/

/-- The two causes carried by a `*strconv.NumError`. -/
inductive NumErr where
  | ErrSyntax
  | ErrRange
  deriving Repr, DecidableEq

/-- Scan of `strconv.ParseUint(s, 10, 32)`, which `ParseInt` calls with its
own bit size, after the empty-string check: a character that is no decimal
digit is a syntax error, a value above `maxVal = 2 ^ 32 - 1` is a range
error, whichever the scan meets first.  The test against the cutoff
`maxUint64 / 10 + 1` guards the multiplication in 64 bits. -/
def parseUintLoop : List Char → Nat → Except NumErr Nat
  | [], n => .ok n
  | c :: cs, n =>
    if 48 ≤ c.toNat ∧ c.toNat ≤ 57 then
      if n ≥ (2 ^ 64 - 1) / 10 + 1 then .error .ErrRange
      else
        let n1 := n * 10 + (c.toNat - 48)
        if n1 > 2 ^ 32 - 1 then .error .ErrRange else parseUintLoop cs n1
    else .error .ErrSyntax

/-- Model of `strconv.ParseUint(s, 10, 32)`. -/
def ParseUint (s : List Char) : Except NumErr Nat :=
  match s with
  | [] => .error .ErrSyntax
  | _ => parseUintLoop s 0

/-- Model of `strconv.ParseInt(s, 10, 32)`: optional sign, then the unsigned
scan, then the signed 32 bit range check. -/
def ParseInt (s : String) : Except NumErr Int :=
  match s.data with
  | [] => .error .ErrSyntax
  | c :: cs =>
    let neg := decide (c = '-')
    let body := if c = '+' ∨ c = '-' then cs else c :: cs
    match ParseUint body with
    | .error .ErrSyntax => .error .ErrSyntax
    | .error .ErrRange => .error .ErrRange
    | .ok un =>
      if ¬ neg ∧ un ≥ 2 ^ 31 then .error .ErrRange
      else if neg ∧ un > 2 ^ 31 then .error .ErrRange
      else .ok (if neg then -(un : Int) else (un : Int))

/-! ## `extractSemVer` -/

/-- The record `semVerInfo`; the `uint32` fields hold values below `2 ^ 32`. -/
structure semVerInfo where
  Major : Nat
  Minor : Nat
  Patch : Nat
  PreRelease : String
  Build : String
  deriving Repr, DecidableEq

/-- Error values returned by the functions of the file. -/
inductive GoError where
  /-- Result of `fmt.Errorf(format, arg)` with one string argument. -/
  | errorf (format : String) (arg : String)
  /-- A `*strconv.NumError` for the text `num`. -/
  | numError (num : String) (err : NumErr)
  /-- An error produced by the operating system or by a library, with its
  message. -/
  | external (msg : String)
  deriving Repr, DecidableEq

/-- Format string of the error of `extractSemVer`. -/
def versionFormat : String :=
  "version string %q does not follow semantic versioning requirements"

/-- Conversion `uint32(x)` of a signed integer. -/
def toUint32 (x : Int) : Nat := (x % (2 ^ 32 : Int)).toNat

/-- Text of entry `i` of a slice of strings. -/
def idx (matches_ : List String) (i : Nat) : String := matches_.getD i ""

/-- The function `extractSemVer`: the pair of the returned pointer (`none`
for `nil`) and the returned error (`none` for `nil`). -/
def extractSemVer (s : String) : Option semVerInfo × Option GoError :=
  let matches_ := FindStringSubmatch relRE 10 s
  if matches_.length = 0 then (none, some (.errorf versionFormat s))
  else
    match ParseInt (idx matches_ 2) with
    | .error e => (none, some (.numError (idx matches_ 2) e))
    | .ok major =>
      match ParseInt (idx matches_ 3) with
      | .error e => (none, some (.numError (idx matches_ 3) e))
      | .ok minor =>
        match ParseInt (idx matches_ 4) with
        | .error e => (none, some (.numError (idx matches_ 4) e))
        | .ok patch =>
          (some
            { Major := toUint32 major
              Minor := toUint32 minor
              Patch := toUint32 patch
              PreRelease := idx matches_ 6
              Build := idx matches_ 9 }, none)

/-- Rendering of a format that holds one verb `%q`: the text of the format
with the quoted argument in place of the verb.  The quoting `strconv.Quote` is
a parameter. -/
def sprintfQ (quote : String → String) : List Char → String → List Char
  | [], _ => []
  | '%' :: 'q' :: rest, arg => (quote arg).data ++ rest
  | c :: rest, arg => c :: sprintfQ quote rest arg

/-- The message `err.Error()` of an error value. -/
def GoError.message (quote : String → String) : GoError → String
  | .errorf format arg => String.mk (sprintfQ quote format.data arg)
  | .numError num .ErrSyntax => "strconv.ParseInt: parsing " ++ quote num ++ ": invalid syntax"
  | .numError num .ErrRange =>
    "strconv.ParseInt: parsing " ++ quote num ++ ": value out of range"
  | .external msg => msg

/-! ## `pgpVerify` -/

/-- The operations `pgpVerify` calls, as oracles: opening a file for reading,
`openpgp.ReadArmoredKeyRing` on the text of a key, and
`openpgp.CheckArmoredDetachedSignature keyring signed signature`, of which
only the returned error is kept. -/
structure PgpEnv (File Keyring : Type) where
  osOpen : String → Except GoError File
  ReadArmoredKeyRing : String → Except GoError Keyring
  CheckArmoredDetachedSignature : Keyring → File → File → Option GoError

/-- The function `pgpVerify`: the returned error, `none` for `nil`.  The
embedded key text `pubkey` is a parameter. -/
def pgpVerify {File Keyring : Type} (env : PgpEnv File Keyring) (pubkey : String)
    (signature manifest : String) : Option GoError :=
  match env.osOpen signature with
  | .error err => some err
  | .ok sf =>
    match env.osOpen manifest with
    | .error err => some err
    | .ok mf =>
      match env.ReadArmoredKeyRing pubkey with
      | .error err => some err
      | .ok keyring => env.CheckArmoredDetachedSignature keyring mf sf

/-! ## The committed scan

`det re` reads `re` without ever revising a choice: the first alternative
that matches is kept and iterations run as long as they can.  It is the tool
used to compute what the backtracking matcher returns on `relRE`. -/

/-- Iteration of a scan until it fails, at most `n` times. -/
def iter (f : MState → Option MState) : Nat → MState → MState
  | 0, st => st
  | n + 1, st =>
    match f st with
    | none => st
    | some st' => iter f n st'

/-- Committed scan of a regular expression. -/
def det : Re → MState → Option MState
  | .lit c, st =>
    match st.rest with
    | [] => none
    | x :: xs => if x = c then some { st with rest := xs } else none
  | .cls rs, st =>
    match st.rest with
    | [] => none
    | x :: xs => if inClass rs x then some { st with rest := xs } else none
  | .seq a b, st => (det a st).bind (fun st' => det b st')
  | .alt a b, st => orElse (det a st) (det b st)
  | .opt a, st => some ((det a st).getD st)
  | .star a, st => some (iter (fun st' => det a st') st.rest.length st)
  | .group n a, st => (det a st).map (withCap n st)

/-! ## The version string of `extract` -/

/-- Decimal digits of `n`, most significant first, put in front of `acc`. -/
def formatLoop : Nat → Nat → List Char → List Char
  | 0, _, acc => acc
  | fuel + 1, n, acc =>
    if n < 10 then Char.ofNat (48 + n) :: acc
    else formatLoop fuel (n / 10) (Char.ofNat (48 + n % 10) :: acc)

/-- Decimal text of an unsigned integer, as the verb `%v` prints it. -/
def formatUint (n : Nat) : String := String.mk (formatLoop (n + 1) n [])

/-- The version text that `extract` builds from the parsed file name:
`fmt.Sprintf("v%v.%v.%v", ...)`, then `-` and the pre-release when that is
not empty. -/
def versionOf (info : semVerInfo) : String :=
  let version :=
    "v" ++ formatUint info.Major ++ "." ++ formatUint info.Minor ++ "." ++
      formatUint info.Patch
  if info.PreRelease ≠ "" then version ++ ("-" ++ info.PreRelease) else version

/-- The function `extract`, with the manifest lookup (`findOS`), the opening
of the archive and `archive.Untar` given by their results.  Returns the
version text and the error; `none` stands for the run-time panic of reading
`info.Major` through a `nil` pointer. -/
def extract (findOS : Except GoError String) (openSrc : String → Option GoError)
    (untar : String → Option GoError) : Option (String × Option GoError) :=
  match findOS with
  | .error err => some ("", some err)
  | .ok filename =>
    match openSrc filename with
    | some err => some ("", some err)
    | none =>
      match untar filename with
      | some err => some ("", some err)
      | none =>
        match extractSemVer filename with
        | (_, some err) => some ("", some err)
        | (some info, none) => some (versionOf info, none)
        | (none, none) => none

/-! ## Shapes of the components -/

/-- Text of a numeric component of the grammar: the literal `0`, or a digit
sequence that does not start with `0`. -/
def isNumeral : List Char → Bool
  | [] => false
  | c :: cs =>
    (c == '0' && cs.isEmpty) ||
      (inClass [('1', '9')] c && cs.all (inClass [('0', '9')]))

/-- Text that the pattern reads as one pre-release identifier when nothing of
the same class follows: a numeric component, or a letter or hyphen followed
by letters, digits and hyphens. -/
def isIdent : List Char → Bool
  | [] => false
  | c :: cs =>
    isNumeral (c :: cs) ||
      (inClass [('a', 'z'), ('A', 'Z'), ('-', '-')] c &&
        cs.all (inClass [('0', '9'), ('a', 'z'), ('A', 'Z'), ('-', '-')]))

/-- Decimal value of a digit sequence. -/
def decimalValue (w : List Char) : Nat :=
  w.foldl (fun n c => n * 10 + (c.toNat - 48)) 0

/-- A non-empty sequence of decimal digits. -/
def isDigits (w : List Char) : Bool :=
  !w.isEmpty && w.all (inClass [('0', '9')])

/-- A leading zero: more than one character, the first of them `0`. -/
def hasLeadingZero : List Char → Bool
  | c :: _ :: _ => c == '0'
  | _ => false

/-! ## The grammar as a language -/

/-- Words of the language of a regular expression; captures play no part. -/
inductive Lang : Re → List Char → Prop
  | lit (c : Char) : Lang (.lit c) [c]
  | cls (rs : List (Char × Char)) (c : Char) : inClass rs c = true → Lang (.cls rs) [c]
  | seq {a b : Re} {u v : List Char} : Lang a u → Lang b v → Lang (.seq a b) (u ++ v)
  | altL {a b : Re} {u : List Char} : Lang a u → Lang (.alt a b) u
  | altR {a b : Re} {u : List Char} : Lang b u → Lang (.alt a b) u
  | optNone {a : Re} : Lang (.opt a) []
  | optSome {a : Re} {u : List Char} : Lang a u → Lang (.opt a) u
  | starNil {a : Re} : Lang (.star a) []
  | starCons {a : Re} {u v : List Char} :
      Lang a u → Lang (.star a) v → Lang (.star a) (u ++ v)
  | group {n : Nat} {a : Re} {u : List Char} : Lang a u → Lang (.group n a) u

/-- A substring of `l` that starts at position `i` conforms to the version
grammar. -/
def ConformsAt (l : List Char) (i : Nat) : Prop :=
  ∃ w post, l.drop i = w ++ post ∧ Lang relRE w ∧ i ≤ l.length

/-- The input contains a substring that conforms to the version grammar. -/
def ContainsVersion (s : String) : Prop := ∃ i, ConformsAt s.data i

/-! ## Notions used to compare the matcher with the committed scan -/

/-- The matcher reads `re` as the committed scan does, whatever follows. -/
def Exact (re : Re) : Prop :=
  ∀ st k, run re st k = (det re st).bind k

/-- The matcher keeps the choice of the committed scan as soon as the
continuation accepts it, and fails where the scan fails. -/
def Commits (re : Re) : Prop :=
  ∀ st k, (det re st = none → run re st k = none) ∧
    (∀ st', det re st = some st' → (k st').isSome → run re st k = k st')

/-- The committed scan never fails. -/
def Total (re : Re) : Prop := ∀ st, (det re st).isSome

/-- The committed scan consumes input. -/
def Shrinks (re : Re) : Prop :=
  ∀ st st', det re st = some st' → st'.rest.length < st.rest.length

/-- Patch number and everything after it. -/
def patchRe : Re := Re.seq (Re.group 4 numRe) (Re.seq preRe buildRe)

/-- Minor number and everything after it. -/
def minorRe : Re := Re.seq (Re.group 3 numRe) (Re.seq (Re.lit '.') patchRe)

/-- Major number and everything after it. -/
def majorRe : Re := Re.seq (Re.group 2 numRe) (Re.seq (Re.lit '.') minorRe)

/-- Group 1 without its `?`. -/
def prefixBody : Re := Re.group 1 (Re.alt (Re.lit 'v') (Re.word "release-v".data))

/-- Indices of the groups of a regular expression. -/
def groups : Re → List Nat
  | .lit _ => []
  | .cls _ => []
  | .seq a b => groups a ++ groups b
  | .alt a b => groups a ++ groups b
  | .opt a => groups a
  | .star a => groups a
  | .group n a => n :: groups a

/-- The result of `extractSemVer` once the captures are known. -/
def ofCaps (caps : List (Nat × List Char)) : Option semVerInfo × Option GoError :=
  match ParseInt (String.mk (capture caps 2)) with
  | .error e => (none, some (.numError (String.mk (capture caps 2)) e))
  | .ok major =>
    match ParseInt (String.mk (capture caps 3)) with
    | .error e => (none, some (.numError (String.mk (capture caps 3)) e))
    | .ok minor =>
      match ParseInt (String.mk (capture caps 4)) with
      | .error e => (none, some (.numError (String.mk (capture caps 4)) e))
      | .ok patch =>
        (some
          { Major := toUint32 major
            Minor := toUint32 minor
            Patch := toUint32 patch
            PreRelease := String.mk (capture caps 6)
            Build := String.mk (capture caps 9) }, none)

/-! ## Soundness and completeness of the matcher -/

theorem orElse_eq_some {a b : Option MState} {r : MState} (h : orElse a b = some r) :
    a = some r ∨ (a = none ∧ b = some r) := by
  cases a with
  | none => exact Or.inr ⟨rfl, h⟩
  | some x => exact Or.inl h

theorem orElse_isSome_left {a b : Option MState} (h : a.isSome) : (orElse a b).isSome := by
  cases a with
  | none => simp at h
  | some x => simp [orElse]

theorem orElse_isSome_right {a b : Option MState} (h : b.isSome) : (orElse a b).isSome := by
  cases a with
  | none => simpa [orElse] using h
  | some x => simp [orElse]

theorem orElse_none_left (b : Option MState) : orElse none b = b := rfl

theorem orElse_some_left (x : MState) (b : Option MState) : orElse (some x) b = some x := rfl

/-- Soundness of the iteration, given soundness of its body. -/
theorem starLoop_sound {a : Re}
    {body : MState → (MState → Option MState) → Option MState}
    (hb : ∀ st k r, body st k = some r →
      ∃ u st', Lang a u ∧ st.rest = u ++ st'.rest ∧ k st' = some r) :
    ∀ n st k r, starLoop body n st k = some r →
      ∃ u st', Lang (.star a) u ∧ st.rest = u ++ st'.rest ∧ k st' = some r := by
  intro n
  induction n with
  | zero =>
    intro st k r h
    exact ⟨[], st, Lang.starNil, rfl, h⟩
  | succ n ih =>
    intro st k r h
    rw [starLoop] at h
    rcases orElse_eq_some h with h1 | ⟨_, h2⟩
    · obtain ⟨u, st1, hu, hrest, hk⟩ := hb _ _ _ h1
      by_cases hlt : st1.rest.length < st.rest.length
      · rw [if_pos hlt] at hk
        obtain ⟨v, st2, hv, hrest2, hk2⟩ := ih _ _ _ hk
        refine ⟨u ++ v, st2, Lang.starCons hu hv, ?_, hk2⟩
        rw [hrest, hrest2, List.append_assoc]
      · rw [if_neg hlt] at hk
        cases hk
    · exact ⟨[], st, Lang.starNil, rfl, h2⟩

/-- Soundness: a successful run consumed a word of the language and then ran
the continuation on the remaining input. -/
theorem run_sound : ∀ (re : Re) (st : MState) (k : MState → Option MState) (r : MState),
    run re st k = some r →
      ∃ u st', Lang re u ∧ st.rest = u ++ st'.rest ∧ k st' = some r := by
  intro re
  induction re with
  | lit c =>
    intro st k r h
    rw [run] at h
    cases hrest : st.rest with
    | nil => rw [hrest] at h; cases h
    | cons x xs =>
      rw [hrest] at h
      by_cases hx : x = c
      · simp only [hx, if_true] at h
        exact ⟨[c], _, Lang.lit c, by simp [hx], h⟩
      · simp only [hx, if_false] at h
        cases h
  | cls rs =>
    intro st k r h
    rw [run] at h
    cases hrest : st.rest with
    | nil => rw [hrest] at h; cases h
    | cons x xs =>
      rw [hrest] at h
      by_cases hx : inClass rs x = true
      · simp only [hx, if_true] at h
        exact ⟨[x], _, Lang.cls rs x hx, by simp, h⟩
      · simp only [hx] at h
        cases h
  | seq a b iha ihb =>
    intro st k r h
    rw [run] at h
    obtain ⟨u, st1, hu, hr1, h1⟩ := iha _ _ _ h
    obtain ⟨v, st2, hv, hr2, h2⟩ := ihb _ _ _ h1
    exact ⟨u ++ v, st2, Lang.seq hu hv, by rw [hr1, hr2, List.append_assoc], h2⟩
  | alt a b iha ihb =>
    intro st k r h
    rw [run] at h
    rcases orElse_eq_some h with h1 | ⟨_, h2⟩
    · obtain ⟨u, st1, hu, hr1, hk⟩ := iha _ _ _ h1
      exact ⟨u, st1, Lang.altL hu, hr1, hk⟩
    · obtain ⟨u, st1, hu, hr1, hk⟩ := ihb _ _ _ h2
      exact ⟨u, st1, Lang.altR hu, hr1, hk⟩
  | opt a iha =>
    intro st k r h
    rw [run] at h
    rcases orElse_eq_some h with h1 | ⟨_, h2⟩
    · obtain ⟨u, st1, hu, hr1, hk⟩ := iha _ _ _ h1
      exact ⟨u, st1, Lang.optSome hu, hr1, hk⟩
    · exact ⟨[], st, Lang.optNone, rfl, h2⟩
  | star a iha =>
    intro st k r h
    rw [run] at h
    exact starLoop_sound iha _ _ _ _ h
  | group n a iha =>
    intro st k r h
    rw [run] at h
    obtain ⟨u, st1, hu, hr1, hk⟩ := iha _ _ _ h
    exact ⟨u, withCap n st st1, Lang.group hu, hr1, hk⟩

/-- Completeness of the iteration for a word of the star language, given
completeness of the body. -/
theorem starLoop_complete {a : Re}
    (ha : ∀ u, Lang a u → ∀ (st : MState) (k : MState → Option MState) (v : List Char),
      st.rest = u ++ v → (∀ caps, (k ⟨v, caps⟩).isSome) → (run a st k).isSome)
    {re : Re} {w : List Char} (hw : Lang re w) (hre : re = .star a) :
    ∀ (n : Nat) (st : MState) (k : MState → Option MState) (v : List Char),
      st.rest = w ++ v → w.length ≤ n → (∀ caps, (k ⟨v, caps⟩).isSome) →
      (starLoop (run a) n st k).isSome := by
  induction hw with
  | lit c => cases hre
  | cls rs c _ => cases hre
  | seq _ _ _ _ => cases hre
  | altL _ _ => cases hre
  | altR _ _ => cases hre
  | optNone => cases hre
  | optSome _ _ => cases hre
  | group _ _ => cases hre
  | starNil =>
    intro n st k v hst _ hk
    have hkst : (k st).isSome := by
      have : st = ⟨v, st.caps⟩ := by cases st; simp_all
      rw [this]; exact hk _
    cases n with
    | zero => exact hkst
    | succ n => rw [starLoop]; exact orElse_isSome_right hkst
  | @starCons a' u v' hu hv _ ihv =>
    cases hre
    intro n st k v hst hn hk
    by_cases hu0 : u = []
    · subst hu0
      exact ihv rfl n st k v (by simpa using hst) (by simpa using hn) hk
    · have hpos : 0 < u.length := List.length_pos.mpr hu0
      cases n with
      | zero =>
        simp only [List.length_append] at hn
        omega
      | succ n =>
        rw [starLoop]
        apply orElse_isSome_left
        apply ha u hu st _ (v' ++ v) (by rw [hst, List.append_assoc])
        intro caps
        have hlt : (v' ++ v).length < st.rest.length := by
          rw [hst]; simp only [List.length_append]; omega
        simp only [hlt, if_true]
        apply ihv rfl n _ k v rfl _ hk
        simp only [List.length_append] at hn
        omega

/-- Completeness: when a word of the language is at the head of the input
and the continuation accepts what follows it, the run succeeds. -/
theorem run_complete {re : Re} {u : List Char} (h : Lang re u) :
    ∀ (st : MState) (k : MState → Option MState) (v : List Char),
      st.rest = u ++ v → (∀ caps, (k ⟨v, caps⟩).isSome) → (run re st k).isSome := by
  induction re generalizing u with
  | lit c =>
    intro st k v hst hk
    cases h
    rw [run, hst]
    simpa using hk _
  | cls rs =>
    intro st k v hst hk
    cases h with
    | cls _ c hc =>
      rw [run, hst]
      simpa [hc] using hk _
  | seq a b iha ihb =>
    intro st k v hst hk
    cases h with
    | @seq _ _ u1 u2 h1 h2 =>
      rw [run]
      apply iha h1 st _ (u2 ++ v) (by rw [hst, List.append_assoc])
      intro caps
      exact ihb h2 _ k v rfl hk
  | alt a b iha ihb =>
    intro st k v hst hk
    rw [run]
    cases h with
    | altL h1 => exact orElse_isSome_left (iha h1 st k v hst hk)
    | altR h2 => exact orElse_isSome_right (ihb h2 st k v hst hk)
  | opt a iha =>
    intro st k v hst hk
    rw [run]
    cases h with
    | optNone =>
      apply orElse_isSome_right
      have : st = ⟨v, st.caps⟩ := by cases st; simp_all
      rw [this]; exact hk _
    | optSome h1 => exact orElse_isSome_left (iha h1 st k v hst hk)
  | star a iha =>
    intro st k v hst hk
    rw [run]
    refine starLoop_complete (fun u hu => iha hu) h rfl _ st k v hst ?_ hk
    rw [hst]; simp
  | group n a iha =>
    intro st k v hst hk
    cases h with
    | group h1 =>
      rw [run]
      exact iha h1 st _ v hst (fun caps => hk _)

/-! ## The matcher against the committed scan -/

theorem det_seq (a b : Re) (st : MState) :
    det (.seq a b) st = (det a st).bind (fun st' => det b st') := by rw [det]

theorem det_alt (a b : Re) (st : MState) :
    det (.alt a b) st = orElse (det a st) (det b st) := by rw [det]

theorem det_opt (a : Re) (st : MState) :
    det (.opt a) st = some ((det a st).getD st) := by rw [det]

theorem det_star (a : Re) (st : MState) :
    det (.star a) st = some (iter (fun st' => det a st') st.rest.length st) := by rw [det]

theorem det_group (n : Nat) (a : Re) (st : MState) :
    det (.group n a) st = (det a st).map (withCap n st) := by rw [det]

theorem run_seq (a b : Re) (st : MState) (k : MState → Option MState) :
    run (.seq a b) st k = run a st (fun st' => run b st' k) := by rw [run]

theorem run_alt (a b : Re) (st : MState) (k : MState → Option MState) :
    run (.alt a b) st k = orElse (run a st k) (run b st k) := by rw [run]

theorem run_opt (a : Re) (st : MState) (k : MState → Option MState) :
    run (.opt a) st k = orElse (run a st k) (k st) := by rw [run]

theorem orElse_none_right (a : Option MState) : orElse a none = a := by
  cases a <;> rfl

theorem orElse_of_isSome {a : Option MState} (b : Option MState) (h : a.isSome) :
    orElse a b = a := by
  cases a with
  | none => simp at h
  | some x => rfl

theorem exact_lit (c : Char) : Exact (.lit c) := by
  intro st k
  rcases st with ⟨rest, caps⟩
  cases rest with
  | nil => simp [run, det]
  | cons x xs => by_cases h : x = c <;> simp [run, det, h]

theorem exact_cls (rs : List (Char × Char)) : Exact (.cls rs) := by
  intro st k
  rcases st with ⟨rest, caps⟩
  cases rest with
  | nil => simp [run, det]
  | cons x xs => by_cases h : inClass rs x = true <;> simp [run, det, h]

theorem exact_seq {a b : Re} (ha : Exact a) (hb : Exact b) : Exact (.seq a b) := by
  intro st k
  rw [run, det, ha]
  cases det a st with
  | none => rfl
  | some st1 => simp [hb st1 k]

theorem exact_group (n : Nat) {a : Re} (ha : Exact a) : Exact (.group n a) := by
  intro st k
  rw [run, det, ha]
  cases det a st <;> rfl

theorem exact_alt {a b : Re} (ha : Exact a) (hb : Exact b)
    (hdisj : ∀ st, (det a st).isSome → det b st = none) : Exact (.alt a b) := by
  intro st k
  rw [run, det, ha, hb]
  cases h : det a st with
  | none => simp [orElse]
  | some st1 =>
    have := hdisj st (by simp [h])
    rw [this]
    simp only [Option.none_bind, Option.some_bind, orElse_none_right, orElse_some_left]

theorem exact_word : ∀ w : List Char, w ≠ [] → Exact (Re.word w)
  | [], h => absurd rfl h
  | [c], _ => exact_lit c
  | c :: d :: cs, _ => exact_seq (exact_lit c) (exact_word (d :: cs) (by simp))

theorem commits_of_exact {re : Re} (h : Exact re) : Commits re := by
  intro st k
  constructor
  · intro hd; rw [h, hd]; rfl
  · intro st' hd _; rw [h, hd]; rfl

theorem commits_seq_exact {a b : Re} (ha : Exact a) (hb : Commits b) :
    Commits (.seq a b) := by
  intro st k
  rw [run, det, ha]
  cases h : det a st with
  | none => simp
  | some st1 =>
    simp only [Option.some_bind]
    exact hb st1 k

theorem commits_seq_total {a b : Re} (ha : Commits a) (hb : Commits b) (ht : Total b) :
    Commits (.seq a b) := by
  intro st k
  rw [run, det]
  constructor
  · intro hd
    cases h : det a st with
    | none => exact (ha st _).1 h
    | some st1 =>
      rw [h] at hd
      simp only [Option.some_bind] at hd
      have := ht st1
      rw [hd] at this
      simp at this
  · intro st' hd hk
    cases h : det a st with
    | none => rw [h] at hd; simp at hd
    | some st1 =>
      rw [h] at hd
      simp only [Option.some_bind] at hd
      have h2 : run b st1 k = k st' := (hb st1 k).2 st' hd hk
      rw [(ha st _).2 st1 h (by rw [h2]; exact hk), h2]

theorem commits_alt {a b : Re} (ha : Commits a) (hb : Commits b) : Commits (.alt a b) := by
  intro st k
  rw [run, det]
  cases h : det a st with
  | none =>
    rw [(ha st k).1 h]
    simp only [orElse_none_left]
    exact hb st k
  | some st1 =>
    constructor
    · intro hd; simp [orElse] at hd
    · intro st' hd hk
      simp only [orElse_some_left, Option.some.injEq] at hd
      subst hd
      rw [(ha st k).2 st1 h hk]
      exact orElse_of_isSome _ hk

theorem commits_opt {a : Re} (ha : Commits a) : Commits (.opt a) := by
  intro st k
  rw [run, det]
  constructor
  · intro hd; simp at hd
  · intro st' hd hk
    cases h : det a st with
    | none =>
      rw [h] at hd
      simp only [Option.getD_none, Option.some.injEq] at hd
      subst hd
      rw [(ha st k).1 h]; rfl
    | some st1 =>
      rw [h] at hd
      simp only [Option.getD_some, Option.some.injEq] at hd
      subst hd
      rw [(ha st k).2 st1 h hk]
      exact orElse_of_isSome _ hk

theorem commits_group (n : Nat) {a : Re} (ha : Commits a) : Commits (.group n a) := by
  intro st k
  rw [run, det]
  constructor
  · intro hd
    cases h : det a st with
    | none => exact (ha st _).1 h
    | some st1 => rw [h] at hd; simp at hd
  · intro st' hd hk
    cases h : det a st with
    | none => rw [h] at hd; simp at hd
    | some st1 =>
      rw [h] at hd
      simp only [Option.map_some', Option.some.injEq] at hd
      subst hd
      exact (ha st _).2 st1 h hk

theorem starLoop_commits {a : Re} (ha : Commits a) (hs : Shrinks a)
    (k : MState → Option MState) :
    ∀ n st, (k (iter (fun st' => det a st') n st)).isSome →
      starLoop (run a) n st k = k (iter (fun st' => det a st') n st) := by
  intro n
  induction n with
  | zero => intro st _; rfl
  | succ n ih =>
    intro st hk
    rw [starLoop]
    rw [iter] at hk ⊢
    cases h : det a st with
    | none =>
      rw [(ha st _).1 h]
      rfl
    | some st1 =>
      simp only [h] at hk ⊢
      have hlt := hs st st1 h
      have hrun := (ha st (fun st' : MState =>
          if st'.rest.length < st.rest.length then starLoop (run a) n st' k else none)).2 st1 h
          (by simp only [hlt, if_true]; rw [ih st1 hk]; exact hk)
      rw [hrun]
      simp only [hlt, if_true]
      rw [ih st1 hk]
      exact orElse_of_isSome _ hk

theorem commits_star {a : Re} (ha : Commits a) (hs : Shrinks a) : Commits (.star a) := by
  intro st k
  rw [run, det]
  constructor
  · intro hd; simp at hd
  · intro st' hd hk
    simp only [Option.some.injEq] at hd
    subst hd
    exact starLoop_commits ha hs k _ st hk

theorem total_opt (a : Re) : Total (.opt a) := by
  intro st; simp [det]

theorem total_star (a : Re) : Total (.star a) := by
  intro st; simp [det]

theorem total_seq {a b : Re} (ha : Total a) (hb : Total b) : Total (.seq a b) := by
  intro st
  rw [det]
  have h1 := ha st
  cases h : det a st with
  | none => rw [h] at h1; simp at h1
  | some st1 => simpa using hb st1

/-- Iteration of a class when the continuation rejects every input that
starts inside the class: no shorter iteration can be taken instead. -/
theorem starLoop_cls_of_fail (rs : List (Char × Char)) (k : MState → Option MState)
    (hk : ∀ c t caps, inClass rs c = true → k ⟨c :: t, caps⟩ = none) :
    ∀ n st, starLoop (run (.cls rs)) n st k
      = k (iter (fun st' => det (.cls rs) st') n st) := by
  intro n
  induction n with
  | zero => intro st; rfl
  | succ n ih =>
    intro st
    rcases st with ⟨rest, caps⟩
    rw [starLoop, iter, exact_cls rs]
    cases rest with
    | nil =>
      have hd : det (.cls rs) ⟨[], caps⟩ = none := by simp [det]
      rw [hd]; rfl
    | cons x xs =>
      by_cases hx : inClass rs x = true
      · have hd : det (.cls rs) ⟨x :: xs, caps⟩ = some ⟨xs, caps⟩ := by simp [det, hx]
        rw [hd]
        simp only [Option.some_bind, List.length_cons, Nat.lt_succ_self, if_true]
        rw [ih, hk x xs caps hx, orElse_none_right]
      · have hd : det (.cls rs) ⟨x :: xs, caps⟩ = none := by simp [det, hx]
        rw [hd]; rfl

theorem run_star_cls_of_fail (rs : List (Char × Char)) (k : MState → Option MState)
    (hk : ∀ c t caps, inClass rs c = true → k ⟨c :: t, caps⟩ = none) (st : MState) :
    run (.star (.cls rs)) st k = (det (.star (.cls rs)) st).bind k := by
  rw [run, det, starLoop_cls_of_fail rs k hk]
  rfl

/-- The committed scan consumed a word of the language. -/
theorem iter_sound {a : Re}
    (ha : ∀ st st', det a st = some st' → ∃ u, st.rest = u ++ st'.rest ∧ Lang a u) :
    ∀ n st, ∃ u, st.rest = u ++ (iter (fun st' => det a st') n st).rest ∧ Lang (.star a) u := by
  intro n
  induction n with
  | zero => intro st; exact ⟨[], rfl, Lang.starNil⟩
  | succ n ih =>
    intro st
    rw [iter]
    cases h : det a st with
    | none => exact ⟨[], rfl, Lang.starNil⟩
    | some st1 =>
      obtain ⟨u, hu, hl⟩ := ha st st1 h
      obtain ⟨v, hv, hl2⟩ := ih st1
      exact ⟨u ++ v, by simp only [hu, List.append_assoc]; rw [← hv], Lang.starCons hl hl2⟩

theorem det_sound : ∀ (re : Re) (st st' : MState), det re st = some st' →
    ∃ u, st.rest = u ++ st'.rest ∧ Lang re u := by
  intro re
  induction re with
  | lit c =>
    intro st st' h
    rcases st with ⟨rest, caps⟩
    cases rest with
    | nil => simp [det] at h
    | cons x xs =>
      by_cases hx : x = c
      · simp only [det, hx, if_true, Option.some.injEq] at h
        subst h
        exact ⟨[c], by simp [hx], Lang.lit c⟩
      · simp [det, hx] at h
  | cls rs =>
    intro st st' h
    rcases st with ⟨rest, caps⟩
    cases rest with
    | nil => simp [det] at h
    | cons x xs =>
      by_cases hx : inClass rs x = true
      · simp only [det, hx, if_true, Option.some.injEq] at h
        subst h
        exact ⟨[x], by simp, Lang.cls rs x hx⟩
      · simp [det, hx] at h
  | seq a b iha ihb =>
    intro st st' h
    rw [det] at h
    cases h1 : det a st with
    | none => rw [h1] at h; simp at h
    | some st1 =>
      rw [h1] at h
      simp only [Option.some_bind] at h
      obtain ⟨u, hu, hl⟩ := iha _ _ h1
      obtain ⟨v, hv, hl2⟩ := ihb _ _ h
      exact ⟨u ++ v, by rw [hu, hv, List.append_assoc], Lang.seq hl hl2⟩
  | alt a b iha ihb =>
    intro st st' h
    rw [det] at h
    rcases orElse_eq_some h with h1 | ⟨_, h2⟩
    · obtain ⟨u, hu, hl⟩ := iha _ _ h1
      exact ⟨u, hu, Lang.altL hl⟩
    · obtain ⟨u, hu, hl⟩ := ihb _ _ h2
      exact ⟨u, hu, Lang.altR hl⟩
  | opt a iha =>
    intro st st' h
    rw [det] at h
    cases h1 : det a st with
    | none =>
      rw [h1] at h
      simp only [Option.getD_none, Option.some.injEq] at h
      subst h
      exact ⟨[], rfl, Lang.optNone⟩
    | some st1 =>
      rw [h1] at h
      simp only [Option.getD_some, Option.some.injEq] at h
      subst h
      obtain ⟨u, hu, hl⟩ := iha _ _ h1
      exact ⟨u, hu, Lang.optSome hl⟩
  | star a iha =>
    intro st st' h
    rw [det] at h
    simp only [Option.some.injEq] at h
    subst h
    exact iter_sound iha _ st
  | group n a iha =>
    intro st st' h
    rw [det] at h
    cases h1 : det a st with
    | none => rw [h1] at h; simp at h
    | some st1 =>
      rw [h1] at h
      simp only [Option.map_some', Option.some.injEq] at h
      subst h
      obtain ⟨u, hu, hl⟩ := iha _ _ h1
      exact ⟨u, hu, Lang.group hl⟩

theorem det_length_le {re : Re} {st st' : MState} (h : det re st = some st') :
    st'.rest.length ≤ st.rest.length := by
  obtain ⟨u, hu, _⟩ := det_sound re st st' h
  rw [hu]; simp

theorem shrinks_lit (c : Char) : Shrinks (.lit c) := by
  intro st st' h
  rcases st with ⟨rest, caps⟩
  cases rest with
  | nil => simp [det] at h
  | cons x xs =>
    by_cases hx : x = c
    · simp only [det, hx, if_true, Option.some.injEq] at h
      subst h; simp
    · simp [det, hx] at h

theorem shrinks_cls (rs : List (Char × Char)) : Shrinks (.cls rs) := by
  intro st st' h
  rcases st with ⟨rest, caps⟩
  cases rest with
  | nil => simp [det] at h
  | cons x xs =>
    by_cases hx : inClass rs x = true
    · simp only [det, hx, if_true, Option.some.injEq] at h
      subst h; simp
    · simp [det, hx] at h

theorem shrinks_seq_left {a : Re} (b : Re) (ha : Shrinks a) : Shrinks (.seq a b) := by
  intro st st' h
  rw [det] at h
  cases h1 : det a st with
  | none => rw [h1] at h; simp at h
  | some st1 =>
    rw [h1] at h
    simp only [Option.some_bind] at h
    have := ha st st1 h1
    have := det_length_le h
    omega

theorem shrinks_group (n : Nat) {a : Re} (ha : Shrinks a) : Shrinks (.group n a) := by
  intro st st' h
  rw [det] at h
  cases h1 : det a st with
  | none => rw [h1] at h; simp at h
  | some st1 =>
    rw [h1] at h
    simp only [Option.map_some', Option.some.injEq] at h
    subst h
    exact ha st st1 h1

theorem run_some_of_commits {re : Re} (h : Commits re) (st : MState) :
    run re st some = det re st := by
  cases hd : det re st with
  | none => exact (h st some).1 hd
  | some st' => exact (h st some).2 st' hd rfl

/-! ### Character classes of the pattern -/

theorem inClass_digit (c : Char) :
    inClass [('0', '9')] c = true ↔ 48 ≤ c.toNat ∧ c.toNat ≤ 57 := by
  simp [inClass]

theorem inClass_nonzero (c : Char) :
    inClass [('1', '9')] c = true ↔ 49 ≤ c.toNat ∧ c.toNat ≤ 57 := by
  simp [inClass]

theorem inClass_letter (c : Char) :
    inClass [('a', 'z'), ('A', 'Z'), ('-', '-')] c = true ↔
      (97 ≤ c.toNat ∧ c.toNat ≤ 122) ∨ (65 ≤ c.toNat ∧ c.toNat ≤ 90) ∨ c.toNat = 45 := by
  simp only [inClass, List.any_cons, List.any_nil, Bool.or_false, Bool.or_eq_true,
    Bool.and_eq_true, decide_eq_true_eq]
  have h1 : 'a'.toNat = 97 := rfl
  have h2 : 'z'.toNat = 122 := rfl
  have h3 : 'A'.toNat = 65 := rfl
  have h4 : 'Z'.toNat = 90 := rfl
  have h5 : '-'.toNat = 45 := rfl
  rw [h1, h2, h3, h4, h5]
  omega

theorem inClass_alnum (c : Char) :
    inClass [('0', '9'), ('a', 'z'), ('A', 'Z'), ('-', '-')] c = true ↔
      (48 ≤ c.toNat ∧ c.toNat ≤ 57) ∨ (97 ≤ c.toNat ∧ c.toNat ≤ 122) ∨
        (65 ≤ c.toNat ∧ c.toNat ≤ 90) ∨ c.toNat = 45 := by
  simp only [inClass, List.any_cons, List.any_nil, Bool.or_false, Bool.or_eq_true,
    Bool.and_eq_true, decide_eq_true_eq]
  have h0 : '0'.toNat = 48 := rfl
  have h9 : '9'.toNat = 57 := rfl
  have h1 : 'a'.toNat = 97 := rfl
  have h2 : 'z'.toNat = 122 := rfl
  have h3 : 'A'.toNat = 65 := rfl
  have h4 : 'Z'.toNat = 90 := rfl
  have h5 : '-'.toNat = 45 := rfl
  rw [h0, h9, h1, h2, h3, h4, h5]
  omega

theorem char_eq_of_toNat {c d : Char} (h : c.toNat = d.toNat) : c = d := by
  apply Char.ext
  apply UInt32.ext
  exact h

/-! ### The pieces of `relRE` -/

theorem commits_digits (rs : List (Char × Char)) : Commits (.star (.cls rs)) :=
  commits_star (commits_of_exact (exact_cls rs)) (shrinks_cls rs)

theorem commits_numRe : Commits numRe :=
  commits_alt (commits_of_exact (exact_lit '0'))
    (commits_seq_exact (exact_cls _) (commits_digits _))

/-- The third alternative of an identifier: the digits cannot be cut short,
because a letter has to follow them. -/
theorem commits_digits_letter :
    Commits (.seq (.star digitC) (.seq letterC (.star alnumC))) := by
  have hB : Commits (.seq letterC (.star alnumC)) :=
    commits_seq_exact (exact_cls _) (commits_digits _)
  intro st k
  have hk1 : ∀ c t caps, inClass [('0', '9')] c = true →
      (fun st' => run (.seq letterC (.star alnumC)) st' k) ⟨c :: t, caps⟩ = none := by
    intro c t caps hc
    have hl : inClass [('a', 'z'), ('A', 'Z'), ('-', '-')] c = false := by
      rw [Bool.eq_false_iff]
      intro hl
      rw [inClass_letter] at hl
      rw [inClass_digit] at hc
      omega
    simp [run, letterC, hl]
  have hrun : run (.seq (.star digitC) (.seq letterC (.star alnumC))) st k
      = (det (.star digitC) st).bind (fun st' => run (.seq letterC (.star alnumC)) st' k) := by
    rw [run]
    exact run_star_cls_of_fail _ _ hk1 st
  rw [hrun, det]
  have hsome : ∃ st1, det (.star digitC) st = some st1 := ⟨_, by rw [det]⟩
  obtain ⟨st1, h1⟩ := hsome
  rw [h1]
  simp only [Option.some_bind]
  exact hB st1 k

theorem commits_identRe : Commits identRe :=
  commits_alt (commits_of_exact (exact_lit '0'))
    (commits_alt (commits_seq_exact (exact_cls _) (commits_digits _)) commits_digits_letter)

theorem commits_dotIdent :
    Commits (.group 7 (.seq (.lit '.') (.group 8 identRe))) :=
  commits_group 7 (commits_seq_exact (exact_lit '.') (commits_group 8 commits_identRe))

theorem commits_preRe : Commits preRe :=
  commits_opt (commits_group 5
    (commits_seq_exact (exact_lit '-')
      (commits_seq_total (commits_group 6 commits_identRe)
        (commits_star commits_dotIdent
          (shrinks_group 7 (shrinks_seq_left _ (shrinks_lit '.'))))
        (total_star _))))

theorem commits_plus_alnum : Commits (Re.plus alnumC) :=
  commits_seq_exact (exact_cls _) (commits_digits _)

theorem commits_buildRe : Commits buildRe :=
  commits_opt (commits_group 9
    (commits_seq_exact (exact_lit '+')
      (commits_seq_total commits_plus_alnum
        (commits_star
          (commits_group 10 (commits_seq_exact (exact_lit '.') commits_plus_alnum))
          (shrinks_group 10 (shrinks_seq_left _ (shrinks_lit '.'))))
        (total_star _))))

theorem relRE_eq : relRE = Re.seq prefixRe majorRe := rfl

theorem commits_patchRe : Commits patchRe :=
  commits_seq_total (commits_group 4 commits_numRe)
    (commits_seq_total commits_preRe commits_buildRe (total_opt _))
    (total_seq (total_opt _) (total_opt _))

/-- A number that is followed by something other than a digit is read in one
way only. -/
theorem run_num_of_fail (n : Nat) (st : MState) (k : MState → Option MState)
    (hk : ∀ c t caps, inClass [('0', '9')] c = true → k ⟨c :: t, caps⟩ = none) :
    run (.group n numRe) st k = (det (.group n numRe) st).bind k := by
  have hk' : ∀ c t caps, inClass [('0', '9')] c = true →
      (fun st' => k (withCap n st st')) ⟨c :: t, caps⟩ = none := by
    intro c t caps hc
    exact hk c t _ hc
  have hnum : run numRe st (fun st' => k (withCap n st st'))
      = (det numRe st).bind (fun st' => k (withCap n st st')) := by
    unfold numRe nonzeroC
    rw [run_alt, det_alt, exact_lit, run_seq, exact_cls, det_seq]
    cases h0 : det (.lit '0') st with
    | none =>
      simp only [Option.none_bind, orElse_none_left]
      cases h1 : det (.cls [('1', '9')]) st with
      | none => rfl
      | some st1 =>
        simp only [Option.some_bind]
        exact run_star_cls_of_fail _ _ hk' st1
    | some st0 =>
      have h1 : det (.cls [('1', '9')]) st = none := by
        rcases st with ⟨rest, caps⟩
        cases rest with
        | nil => simp [det] at h0
        | cons x xs =>
          by_cases hx : x = '0'
          · subst hx
            simp [det, inClass]
          · simp [det, hx] at h0
      rw [h1]
      simp only [Option.none_bind, Option.some_bind, orElse_none_right, orElse_some_left]
  rw [run, hnum, det]
  cases det numRe st <;> rfl

theorem run_lit_digit_none (c : Char) (hc : inClass [('0', '9')] c = false) (re : Re)
    (k : MState → Option MState) :
    ∀ d t caps, inClass [('0', '9')] d = true →
      (fun st' => run (.seq (.lit c) re) st' k) ⟨d :: t, caps⟩ = none := by
  intro d t caps hd
  have hne : d ≠ c := by
    intro h; subst h; rw [hc] at hd; cases hd
  simp [run, hne]

theorem run_seq_lit (c : Char) (re : Re) (h : ∀ st, run re st some = det re st)
    (st : MState) : run (.seq (.lit c) re) st some = det (.seq (.lit c) re) st := by
  rw [run, exact_lit]
  conv_rhs => rw [det]
  cases det (.lit c) st with
  | none => rfl
  | some st1 => exact h st1

theorem run_minorRe (st : MState) : run minorRe st some = det minorRe st := by
  unfold minorRe
  rw [run, run_num_of_fail 3 st _ (run_lit_digit_none '.' (by decide) patchRe some), det]
  cases det (.group 3 numRe) st with
  | none => rfl
  | some st1 =>
    exact run_seq_lit '.' patchRe (run_some_of_commits commits_patchRe) st1

theorem run_majorRe (st : MState) : run majorRe st some = det majorRe st := by
  unfold majorRe
  rw [run, run_num_of_fail 2 st _ (run_lit_digit_none '.' (by decide) minorRe some), det]
  cases det (.group 2 numRe) st with
  | none => rfl
  | some st1 =>
    exact run_seq_lit '.' minorRe run_minorRe st1

theorem det_lit_cons (c x : Char) (xs : List Char) (caps : List (Nat × List Char)) :
    det (.lit c) ⟨x :: xs, caps⟩ = if x = c then some ⟨xs, caps⟩ else none := by
  rw [det]

theorem det_lit_nil (c : Char) (caps : List (Nat × List Char)) :
    det (.lit c) ⟨[], caps⟩ = none := by
  rw [det]

theorem det_cls_cons (rs : List (Char × Char)) (x : Char) (xs : List Char)
    (caps : List (Nat × List Char)) :
    det (.cls rs) ⟨x :: xs, caps⟩ = if inClass rs x then some ⟨xs, caps⟩ else none := by
  rw [det]

theorem det_cls_nil (rs : List (Char × Char)) (caps : List (Nat × List Char)) :
    det (.cls rs) ⟨[], caps⟩ = none := by
  rw [det]

theorem word_release : Re.word "release-v".data
    = Re.seq (Re.lit 'r') (Re.word "elease-v".data) := rfl

theorem exact_prefixBody : Exact prefixBody := by
  refine exact_group 1 (exact_alt (exact_lit 'v') (exact_word _ (by decide)) ?_)
  intro st h
  rcases st with ⟨rest, caps⟩
  cases rest with
  | nil => rw [det_lit_nil] at h; cases h
  | cons x xs =>
    rw [det_lit_cons] at h
    by_cases hx : x = 'v'
    · subst hx
      rw [word_release, det_seq, det_lit_cons]
      rfl
    · rw [if_neg hx] at h; cases h

/-- The text a successful prefix scan started on begins with `v` or `r`. -/
theorem prefixBody_head {st st1 : MState} (h : det prefixBody st = some st1) :
    ∃ c t, st.rest = c :: t ∧ (c = 'v' ∨ c = 'r') := by
  rcases st with ⟨rest, caps⟩
  cases rest with
  | nil =>
    unfold prefixBody at h
    rw [det_group, det_alt, det_lit_nil, word_release, det_seq, det_lit_nil] at h
    cases h
  | cons x xs =>
    refine ⟨x, xs, rfl, ?_⟩
    by_contra hne
    rw [not_or] at hne
    unfold prefixBody at h
    rw [det_group, det_alt, det_lit_cons, word_release, det_seq, det_lit_cons,
      if_neg hne.1, if_neg hne.2] at h
    cases h

theorem det_num_none (n : Nat) (c : Char) (t : List Char) (caps : List (Nat × List Char))
    (hc : inClass [('0', '9')] c = false) : det (.group n numRe) ⟨c :: t, caps⟩ = none := by
  have h0 : c ≠ '0' := by
    intro h; subst h; revert hc; decide
  have h1 : inClass [('1', '9')] c = false := by
    rw [Bool.eq_false_iff] at hc ⊢
    intro h
    apply hc
    rw [inClass_digit]
    rw [inClass_nonzero] at h
    omega
  unfold numRe nonzeroC
  rw [det_group, det_alt, det_lit_cons, det_seq, det_cls_cons, if_neg h0, h1]
  rfl

/-- On `relRE` followed by nothing, the backtracking matcher returns what the
committed scan returns. -/
theorem run_relRE (st : MState) : run relRE st some = det relRE st := by
  rw [relRE_eq, run_seq, det_seq]
  have hK : (fun st' => run majorRe st' some) = (fun st' => det majorRe st') :=
    funext run_majorRe
  rw [hK]
  change run (.opt prefixBody) st _ = (det (.opt prefixBody) st).bind _
  rw [run_opt, exact_prefixBody, det_opt]
  cases h : det prefixBody st with
  | none => rfl
  | some st1 =>
    obtain ⟨c, t, hrest, hc⟩ := prefixBody_head h
    have hnone : det majorRe st = none := by
      rcases st with ⟨rest, caps⟩
      simp only at hrest
      subst hrest
      unfold majorRe
      rw [det_seq, det_num_none 2 c t caps (by rcases hc with h | h <;> subst h <;> decide)]
      rfl
    rw [hnone]
    simp only [Option.some_bind, Option.getD_some, orElse_none_right]

theorem matchAt_relRE (l : List Char) : matchAt relRE l = det relRE ⟨l, []⟩ :=
  run_relRE _

/-! ### Captures written by the committed scan -/

/-- The groups of `relRE` are numbered 1 to 10, in the order of their opening
parentheses. -/
theorem groups_relRE : groups relRE = [1, 2, 3, 4, 5, 6, 7, 8, 9, 10] := by
  decide

theorem iter_caps {a : Re}
    (ha : ∀ st st', det a st = some st' →
      ∃ pushed, st'.caps = pushed ++ st.caps ∧ ∀ q ∈ pushed, q.1 ∈ groups a) :
    ∀ n st, ∃ pushed, (iter (fun st' => det a st') n st).caps = pushed ++ st.caps ∧
      ∀ q ∈ pushed, q.1 ∈ groups a := by
  intro n
  induction n with
  | zero => intro st; exact ⟨[], rfl, by simp⟩
  | succ n ih =>
    intro st
    rw [iter]
    cases h : det a st with
    | none => exact ⟨[], rfl, by simp⟩
    | some st1 =>
      obtain ⟨p1, h1, hp1⟩ := ha st st1 h
      obtain ⟨p2, h2, hp2⟩ := ih st1
      refine ⟨p2 ++ p1, by simp only [h2, h1, List.append_assoc], ?_⟩
      intro q hq
      rcases List.mem_append.mp hq with hq | hq
      · exact hp2 q hq
      · exact hp1 q hq

/-- The scan only adds captures, and only for groups of the expression. -/
theorem det_caps : ∀ (re : Re) (st st' : MState), det re st = some st' →
    ∃ pushed, st'.caps = pushed ++ st.caps ∧ ∀ q ∈ pushed, q.1 ∈ groups re := by
  intro re
  induction re with
  | lit c =>
    intro st st' h
    rcases st with ⟨rest, caps⟩
    cases rest with
    | nil => rw [det_lit_nil] at h; cases h
    | cons x xs =>
      rw [det_lit_cons] at h
      by_cases hx : x = c
      · rw [if_pos hx] at h
        cases h
        exact ⟨[], rfl, by simp⟩
      · rw [if_neg hx] at h; cases h
  | cls rs =>
    intro st st' h
    rcases st with ⟨rest, caps⟩
    cases rest with
    | nil => rw [det_cls_nil] at h; cases h
    | cons x xs =>
      rw [det_cls_cons] at h
      by_cases hx : inClass rs x = true
      · rw [if_pos hx] at h
        cases h
        exact ⟨[], rfl, by simp⟩
      · rw [if_neg hx] at h; cases h
  | seq a b iha ihb =>
    intro st st' h
    rw [det_seq] at h
    cases h1 : det a st with
    | none => rw [h1] at h; cases h
    | some st1 =>
      rw [h1] at h
      simp only [Option.some_bind] at h
      obtain ⟨p1, e1, hp1⟩ := iha _ _ h1
      obtain ⟨p2, e2, hp2⟩ := ihb _ _ h
      refine ⟨p2 ++ p1, by rw [e2, e1, List.append_assoc], ?_⟩
      intro q hq
      simp only [groups, List.mem_append]
      rcases List.mem_append.mp hq with hq | hq
      · exact Or.inr (hp2 q hq)
      · exact Or.inl (hp1 q hq)
  | alt a b iha ihb =>
    intro st st' h
    rw [det_alt] at h
    rcases orElse_eq_some h with h1 | ⟨_, h2⟩
    · obtain ⟨p1, e1, hp1⟩ := iha _ _ h1
      exact ⟨p1, e1, fun q hq => by
        simp only [groups, List.mem_append]; exact Or.inl (hp1 q hq)⟩
    · obtain ⟨p1, e1, hp1⟩ := ihb _ _ h2
      exact ⟨p1, e1, fun q hq => by
        simp only [groups, List.mem_append]; exact Or.inr (hp1 q hq)⟩
  | opt a iha =>
    intro st st' h
    rw [det_opt] at h
    cases h1 : det a st with
    | none =>
      rw [h1] at h
      simp only [Option.getD_none, Option.some.injEq] at h
      subst h
      exact ⟨[], rfl, by simp⟩
    | some st1 =>
      rw [h1] at h
      simp only [Option.getD_some, Option.some.injEq] at h
      subst h
      exact iha _ _ h1
  | star a iha =>
    intro st st' h
    rw [det_star] at h
    simp only [Option.some.injEq] at h
    subst h
    exact iter_caps iha _ st
  | group n a iha =>
    intro st st' h
    rw [det_group] at h
    cases h1 : det a st with
    | none => rw [h1] at h; cases h
    | some st1 =>
      rw [h1] at h
      simp only [Option.map_some', Option.some.injEq] at h
      subst h
      obtain ⟨p1, e1, hp1⟩ := iha _ _ h1
      refine ⟨(n, st.rest.take (st.rest.length - st1.rest.length)) :: p1, ?_, ?_⟩
      · simp [withCap, e1]
      · intro q hq
        simp only [groups, List.mem_cons]
        rcases List.mem_cons.mp hq with hq | hq
        · left; rw [hq]
        · right; exact hp1 q hq

theorem capture_append (pushed caps : List (Nat × List Char)) (n : Nat)
    (h : ∀ q ∈ pushed, q.1 ≠ n) : capture (pushed ++ caps) n = capture caps n := by
  induction pushed with
  | nil => rfl
  | cons q qs ih =>
    rcases q with ⟨m, w⟩
    have hm : m ≠ n := h (m, w) (by simp)
    simp only [List.cons_append, capture, if_neg hm]
    exact ih (fun q hq => h q (by simp [hq]))

theorem capture_nil_of_not_mem (caps : List (Nat × List Char)) (n : Nat)
    (h : ∀ q ∈ caps, q.1 ≠ n) : capture caps n = [] := by
  have := capture_append caps [] n h
  simpa [capture] using this

/-- Captures outside the groups of `re` are left alone by the scan of `re`. -/
theorem capture_det {re : Re} {st st' : MState} (h : det re st = some st') (n : Nat)
    (hn : n ∉ groups re) : capture st'.caps n = capture st.caps n := by
  obtain ⟨pushed, e, hp⟩ := det_caps re st st' h
  rw [e]
  apply capture_append
  intro q hq hqn
  exact hn (hqn ▸ hp q hq)

/-! ### Runs of a character class -/

theorem iter_cls (rs : List (Char × Char)) (caps : List (Nat × List Char)) :
    ∀ (n : Nat) (l : List Char), l.length ≤ n →
      iter (fun st' => det (.cls rs) st') n ⟨l, caps⟩ = ⟨l.dropWhile (inClass rs), caps⟩ := by
  intro n
  induction n with
  | zero =>
    intro l hl
    have : l = [] := List.length_eq_zero.mp (Nat.le_zero.mp hl)
    subst this
    rfl
  | succ n ih =>
    intro l hl
    rw [iter]
    cases l with
    | nil => rw [det_cls_nil]; rfl
    | cons x xs =>
      rw [det_cls_cons]
      by_cases hx : inClass rs x = true
      · rw [if_pos hx]
        simp only [List.dropWhile_cons, hx, if_true]
        exact ih xs (by simpa using hl)
      · rw [if_neg hx]
        simp only [List.dropWhile_cons, hx]
        rfl

theorem det_star_cls (rs : List (Char × Char)) (l : List Char)
    (caps : List (Nat × List Char)) :
    det (.star (.cls rs)) ⟨l, caps⟩ = some ⟨l.dropWhile (inClass rs), caps⟩ := by
  rw [det_star, iter_cls rs caps _ l (le_refl _)]

theorem dropWhile_append_of_all (p : Char → Bool) (xs tail : List Char)
    (hxs : ∀ x ∈ xs, p x = true) (ht : ∀ c t, tail = c :: t → p c = false) :
    (xs ++ tail).dropWhile p = tail := by
  induction xs with
  | nil =>
    cases tail with
    | nil => rfl
    | cons c t => simp [List.dropWhile_cons, ht c t rfl]
  | cons x xs ih =>
    simp only [List.cons_append, List.dropWhile_cons, hxs x (by simp), if_true]
    exact ih (fun y hy => hxs y (by simp [hy]))

theorem withCap_append (n : Nat) (u v : List Char) (caps caps' : List (Nat × List Char)) :
    withCap n ⟨u ++ v, caps⟩ ⟨v, caps'⟩ = ⟨v, (n, u) :: caps'⟩ := by
  simp [withCap]

/-- A group around a scan that reads `u` records `u`. -/
theorem det_group_append {n : Nat} {a : Re} {u v : List Char}
    {caps caps' : List (Nat × List Char)} (h : det a ⟨u ++ v, caps⟩ = some ⟨v, caps'⟩) :
    det (.group n a) ⟨u ++ v, caps⟩ = some ⟨v, (n, u) :: caps'⟩ := by
  rw [det_group, h]
  simp only [Option.map_some', withCap_append]

/-- What a group recorded is the text its scan consumed. -/
theorem det_group_inv {n : Nat} {a : Re} {st st' : MState}
    (h : det (.group n a) st = some st') :
    ∃ u st1, det a st = some st1 ∧ st.rest = u ++ st1.rest ∧ Lang a u ∧
      st' = ⟨st1.rest, (n, u) :: st1.caps⟩ := by
  rw [det_group] at h
  cases h1 : det a st with
  | none => rw [h1] at h; cases h
  | some st1 =>
    rw [h1] at h
    simp only [Option.map_some', Option.some.injEq] at h
    obtain ⟨u, hu, hl⟩ := det_sound a st st1 h1
    refine ⟨u, st1, rfl, hu, hl, ?_⟩
    rw [← h]
    simp [withCap, hu]

/-! ### Numbers and identifiers under the committed scan -/

theorem not_digit_of_not_zero_nonzero {c : Char} (h0 : c ≠ '0')
    (h1 : ¬ inClass [('1', '9')] c = true) : inClass [('0', '9')] c = false := by
  rw [Bool.eq_false_iff]
  intro h
  rw [inClass_digit] at h
  rw [inClass_nonzero] at h1
  have : c.toNat = 48 := by omega
  exact h0 (char_eq_of_toNat this)

theorem nonzero_ne_zero {c : Char} (h : inClass [('1', '9')] c = true) : c ≠ '0' := by
  intro hc; subst hc; revert h; decide

theorem digit_of_nonzero {c : Char} (h : inClass [('1', '9')] c = true) :
    inClass [('0', '9')] c = true := by
  rw [inClass_nonzero] at h
  rw [inClass_digit]
  omega

theorem alnum_of_digit {c : Char} (h : inClass [('0', '9')] c = true) :
    inClass [('0', '9'), ('a', 'z'), ('A', 'Z'), ('-', '-')] c = true := by
  rw [inClass_digit] at h
  rw [inClass_alnum]
  exact Or.inl h

theorem not_digit_of_letter {c : Char}
    (h : inClass [('a', 'z'), ('A', 'Z'), ('-', '-')] c = true) :
    inClass [('0', '9')] c = false := by
  rw [Bool.eq_false_iff]
  intro hd
  rw [inClass_letter] at h
  rw [inClass_digit] at hd
  omega

theorem det_numRe_nil (caps : List (Nat × List Char)) : det numRe ⟨[], caps⟩ = none := by
  unfold numRe nonzeroC
  rw [det_alt, det_lit_nil, det_seq, det_cls_nil]
  rfl

theorem det_numRe_cons (c : Char) (t : List Char) (caps : List (Nat × List Char)) :
    det numRe ⟨c :: t, caps⟩ =
      if c = '0' then some ⟨t, caps⟩
      else if inClass [('1', '9')] c = true then
        some ⟨t.dropWhile (inClass [('0', '9')]), caps⟩
      else none := by
  unfold numRe nonzeroC digitC
  rw [det_alt, det_lit_cons, det_seq, det_cls_cons]
  by_cases h0 : c = '0'
  · rw [if_pos h0, if_pos h0]; rfl
  · rw [if_neg h0, if_neg h0, orElse_none_left]
    by_cases h1 : inClass [('1', '9')] c = true
    · rw [if_pos h1, if_pos h1, Option.some_bind, det_star_cls]
    · rw [if_neg h1, if_neg h1]; rfl

theorem det_identRe_nil (caps : List (Nat × List Char)) : det identRe ⟨[], caps⟩ = none := by
  unfold identRe nonzeroC digitC letterC
  rw [det_alt, det_lit_nil, det_alt, det_seq, det_cls_nil, det_seq, det_star_cls]
  simp only [List.dropWhile_nil, Option.none_bind, Option.some_bind, orElse_none_left]
  rw [det_seq, det_cls_nil]
  rfl

theorem det_identRe_cons (c : Char) (t : List Char) (caps : List (Nat × List Char)) :
    det identRe ⟨c :: t, caps⟩ =
      if c = '0' then some ⟨t, caps⟩
      else if inClass [('1', '9')] c = true then
        some ⟨t.dropWhile (inClass [('0', '9')]), caps⟩
      else if inClass [('a', 'z'), ('A', 'Z'), ('-', '-')] c = true then
        some ⟨t.dropWhile (inClass [('0', '9'), ('a', 'z'), ('A', 'Z'), ('-', '-')]), caps⟩
      else none := by
  unfold identRe nonzeroC digitC letterC alnumC
  rw [det_alt, det_lit_cons, det_alt, det_seq, det_cls_cons]
  by_cases h0 : c = '0'
  · rw [if_pos h0, if_pos h0]; rfl
  · rw [if_neg h0, if_neg h0, orElse_none_left]
    by_cases h1 : inClass [('1', '9')] c = true
    · rw [if_pos h1, if_pos h1, Option.some_bind, det_star_cls]; rfl
    · rw [if_neg h1, if_neg h1, Option.none_bind, orElse_none_left, det_seq, det_star_cls]
      have hd := not_digit_of_not_zero_nonzero h0 h1
      have hdw : (c :: t).dropWhile (inClass [('0', '9')]) = c :: t := by
        simp [List.dropWhile_cons, hd]
      rw [hdw, Option.some_bind, det_seq, det_cls_cons]
      by_cases h2 : inClass [('a', 'z'), ('A', 'Z'), ('-', '-')] c = true
      · rw [if_pos h2, if_pos h2, Option.some_bind, det_star_cls]
      · rw [if_neg h2, if_neg h2]; rfl

theorem takeWhile_all (p : Char → Bool) (t : List Char) :
    (t.takeWhile p).all p = true := by
  rw [List.all_eq_true]
  intro x hx
  exact List.mem_takeWhile_imp hx

/-- A number read by the scan is a numeric component of the grammar. -/
theorem det_num_inv {n : Nat} {l : List Char} {caps : List (Nat × List Char)}
    {st' : MState} (h : det (.group n numRe) ⟨l, caps⟩ = some st') :
    ∃ w, l = w ++ st'.rest ∧ isNumeral w = true ∧ st'.caps = (n, w) :: caps := by
  cases l with
  | nil => rw [det_group, det_numRe_nil] at h; cases h
  | cons c t =>
    by_cases h0 : c = '0'
    · have hd : det numRe ⟨[c] ++ t, caps⟩ = some ⟨t, caps⟩ := by
        rw [List.singleton_append, det_numRe_cons, if_pos h0]
      have := det_group_append (n := n) hd
      rw [List.singleton_append] at this
      rw [this] at h
      cases h
      exact ⟨[c], rfl, by subst h0; rfl, rfl⟩
    · by_cases h1 : inClass [('1', '9')] c = true
      · have hd : det numRe
            ⟨(c :: t.takeWhile (inClass [('0', '9')])) ++ t.dropWhile (inClass [('0', '9')]),
              caps⟩ = some ⟨t.dropWhile (inClass [('0', '9')]), caps⟩ := by
          rw [List.cons_append, List.takeWhile_append_dropWhile, det_numRe_cons, if_neg h0,
            if_pos h1]
        have := det_group_append (n := n) hd
        rw [List.cons_append, List.takeWhile_append_dropWhile] at this
        rw [this] at h
        cases h
        refine ⟨c :: t.takeWhile (inClass [('0', '9')]), ?_, ?_, rfl⟩
        · simp [List.takeWhile_append_dropWhile]
        · simp only [isNumeral, h1, takeWhile_all, Bool.and_self, Bool.or_true]
      · rw [det_group, det_numRe_cons, if_neg h0, if_neg h1] at h; cases h

/-- A numeric component followed by something other than a digit is read whole. -/
theorem det_num_append (n : Nat) {w : List Char} (hw : isNumeral w = true) (tail : List Char)
    (ht : ∀ c t, tail = c :: t → inClass [('0', '9')] c = false)
    (caps : List (Nat × List Char)) :
    det (.group n numRe) ⟨w ++ tail, caps⟩ = some ⟨tail, (n, w) :: caps⟩ := by
  apply det_group_append
  cases w with
  | nil => simp [isNumeral] at hw
  | cons c cs =>
    rw [List.cons_append, det_numRe_cons]
    by_cases h0 : c = '0'
    · rw [if_pos h0]
      subst h0
      have : cs = [] := by
        simp only [isNumeral, beq_self_eq_true, Bool.true_and, Bool.or_eq_true,
          List.isEmpty_iff, Bool.and_eq_true] at hw
        rcases hw with hw | ⟨hw, _⟩
        · exact hw
        · exact absurd hw (by decide)
      subst this
      rfl
    · rw [if_neg h0]
      have hw' : inClass [('1', '9')] c = true ∧ cs.all (inClass [('0', '9')]) = true := by
        simp only [isNumeral, Bool.or_eq_true, Bool.and_eq_true, beq_iff_eq] at hw
        rcases hw with ⟨hw, _⟩ | hw
        · exact absurd hw h0
        · exact hw
      rw [if_pos hw'.1, dropWhile_append_of_all _ _ _ (List.all_eq_true.mp hw'.2) ht]

/-- An identifier read by the scan has the shape `isIdent`. -/
theorem det_ident_inv {n : Nat} {l : List Char} {caps : List (Nat × List Char)}
    {st' : MState} (h : det (.group n identRe) ⟨l, caps⟩ = some st') :
    ∃ w, l = w ++ st'.rest ∧ isIdent w = true ∧ st'.caps = (n, w) :: caps := by
  cases l with
  | nil => rw [det_group, det_identRe_nil] at h; cases h
  | cons c t =>
    by_cases h0 : c = '0'
    · have hd : det identRe ⟨[c] ++ t, caps⟩ = some ⟨t, caps⟩ := by
        rw [List.singleton_append, det_identRe_cons, if_pos h0]
      have := det_group_append (n := n) hd
      rw [List.singleton_append] at this
      rw [this] at h
      cases h
      exact ⟨[c], rfl, by subst h0; rfl, rfl⟩
    · by_cases h1 : inClass [('1', '9')] c = true
      · have hd : det identRe
            ⟨(c :: t.takeWhile (inClass [('0', '9')])) ++ t.dropWhile (inClass [('0', '9')]),
              caps⟩ = some ⟨t.dropWhile (inClass [('0', '9')]), caps⟩ := by
          rw [List.cons_append, List.takeWhile_append_dropWhile, det_identRe_cons, if_neg h0,
            if_pos h1]
        have := det_group_append (n := n) hd
        rw [List.cons_append, List.takeWhile_append_dropWhile] at this
        rw [this] at h
        cases h
        refine ⟨c :: t.takeWhile (inClass [('0', '9')]), ?_, ?_, rfl⟩
        · simp [List.takeWhile_append_dropWhile]
        · simp only [isIdent, isNumeral, h1, takeWhile_all, Bool.and_self, Bool.or_true,
            Bool.true_or]
      · by_cases h2 : inClass [('a', 'z'), ('A', 'Z'), ('-', '-')] c = true
        · have hd : det identRe
              ⟨(c :: t.takeWhile (inClass [('0', '9'), ('a', 'z'), ('A', 'Z'), ('-', '-')])) ++
                  t.dropWhile (inClass [('0', '9'), ('a', 'z'), ('A', 'Z'), ('-', '-')]),
                caps⟩
              = some ⟨t.dropWhile (inClass [('0', '9'), ('a', 'z'), ('A', 'Z'), ('-', '-')]),
                  caps⟩ := by
            rw [List.cons_append, List.takeWhile_append_dropWhile, det_identRe_cons, if_neg h0,
              if_neg h1, if_pos h2]
          have := det_group_append (n := n) hd
          rw [List.cons_append, List.takeWhile_append_dropWhile] at this
          rw [this] at h
          cases h
          refine ⟨c :: t.takeWhile (inClass [('0', '9'), ('a', 'z'), ('A', 'Z'), ('-', '-')]),
            ?_, ?_, rfl⟩
          · simp [List.takeWhile_append_dropWhile]
          · simp only [isIdent, h2, takeWhile_all, Bool.and_self, Bool.or_true]
        · rw [det_group, det_identRe_cons, if_neg h0, if_neg h1, if_neg h2] at h; cases h

/-- An identifier followed by nothing of its class is read whole. -/
theorem det_ident_append (n : Nat) {w : List Char} (hw : isIdent w = true) (tail : List Char)
    (ht : ∀ c t, tail = c :: t →
      inClass [('0', '9'), ('a', 'z'), ('A', 'Z'), ('-', '-')] c = false)
    (caps : List (Nat × List Char)) :
    det (.group n identRe) ⟨w ++ tail, caps⟩ = some ⟨tail, (n, w) :: caps⟩ := by
  apply det_group_append
  have htd : ∀ c t, tail = c :: t → inClass [('0', '9')] c = false := by
    intro c t h
    have := ht c t h
    rw [Bool.eq_false_iff] at this ⊢
    exact fun hd => this (alnum_of_digit hd)
  cases w with
  | nil => simp [isIdent] at hw
  | cons c cs =>
    rw [List.cons_append, det_identRe_cons]
    by_cases h0 : c = '0'
    · rw [if_pos h0]
      subst h0
      have : cs = [] := by
        simp only [isIdent, isNumeral, beq_self_eq_true, Bool.true_and, Bool.or_eq_true,
          List.isEmpty_iff, Bool.and_eq_true] at hw
        rcases hw with (hw | ⟨hw, _⟩) | ⟨hw, _⟩
        · exact hw
        · exact absurd hw (by decide)
        · exact absurd hw (by decide)
      subst this
      rfl
    · rw [if_neg h0]
      by_cases h1 : inClass [('1', '9')] c = true
      · rw [if_pos h1]
        have hall : ∀ x ∈ cs, inClass [('0', '9')] x = true := by
          simp only [isIdent, isNumeral, Bool.or_eq_true, Bool.and_eq_true, beq_iff_eq,
            List.all_eq_true] at hw
          rcases hw with (⟨hw, _⟩ | hw) | ⟨hw, _⟩
          · exact absurd hw h0
          · exact hw.2
          · have := not_digit_of_letter hw
            rw [digit_of_nonzero h1] at this
            cases this
        rw [dropWhile_append_of_all _ _ _ hall htd]
      · rw [if_neg h1]
        have hw' : inClass [('a', 'z'), ('A', 'Z'), ('-', '-')] c = true ∧
            ∀ x ∈ cs, inClass [('0', '9'), ('a', 'z'), ('A', 'Z'), ('-', '-')] x = true := by
          simp only [isIdent, isNumeral, Bool.or_eq_true, Bool.and_eq_true, beq_iff_eq,
            List.all_eq_true] at hw
          rcases hw with (⟨hw, _⟩ | ⟨hw, _⟩) | hw
          · exact absurd hw h0
          · exact absurd hw h1
          · exact hw
        rw [if_pos hw'.1, dropWhile_append_of_all _ _ _ hw'.2 ht]

/-! ## Numbers: parsing and printing -/

theorem foldl_value_ge (cs : List Char) (m : Nat) :
    m ≤ cs.foldl (fun n c => n * 10 + (c.toNat - 48)) m := by
  induction cs generalizing m with
  | nil => exact le_refl _
  | cons c cs ih =>
    simp only [List.foldl_cons]
    exact le_trans (by omega) (ih _)

theorem parseUintLoop_digits (w : List Char) :
    ∀ n, n ≤ 2 ^ 32 - 1 → (∀ c ∈ w, inClass [('0', '9')] c = true) →
      parseUintLoop w n =
        if w.foldl (fun n c => n * 10 + (c.toNat - 48)) n ≤ 2 ^ 32 - 1 then
          .ok (w.foldl (fun n c => n * 10 + (c.toNat - 48)) n)
        else .error .ErrRange := by
  induction w with
  | nil =>
    intro n hn _
    simp only [parseUintLoop, List.foldl_nil, hn, if_true]
  | cons c cs ih =>
    intro n hn hw
    have hc := (inClass_digit c).mp (hw c (by simp))
    have hge := foldl_value_ge cs (n * 10 + (c.toNat - 48))
    have h32 : (2 : Nat) ^ 32 - 1 = 4294967295 := by norm_num
    have hcut : ¬ n ≥ (2 ^ 64 - 1) / 10 + 1 := by
      have : (2 ^ 64 - 1) / 10 + 1 = 1844674407370955162 := by norm_num
      rw [this]
      rw [h32] at hn
      omega
    simp only [parseUintLoop, hc, and_self, if_true, List.foldl_cons]
    rw [if_neg hcut]
    by_cases h2 : n * 10 + (c.toNat - 48) > 2 ^ 32 - 1
    · rw [if_pos h2, if_neg]
      omega
    · rw [if_neg h2]
      exact ih _ (by omega) (fun x hx => hw x (by simp [hx]))

/-- `ParseInt` on a non-empty digit sequence: its decimal value when that is
below `2 ^ 31`, a range error otherwise. -/
theorem ParseInt_digits (w : List Char) (hne : w ≠ [])
    (hw : ∀ c ∈ w, inClass [('0', '9')] c = true) :
    ParseInt (String.mk w) =
      if decimalValue w < 2 ^ 31 then .ok (decimalValue w : Int) else .error .ErrRange := by
  cases w with
  | nil => exact absurd rfl hne
  | cons c cs =>
    have hc := (inClass_digit c).mp (hw c (by simp))
    have hplus : c ≠ '+' := by
      intro h; subst h; revert hc; decide
    have hminus : c ≠ '-' := by
      intro h; subst h; revert hc; decide
    have hloop := parseUintLoop_digits (c :: cs) 0 (by norm_num) hw
    unfold ParseInt
    simp only [hplus, hminus, or_self, if_false, ParseUint, decide_False, Bool.false_eq_true,
      not_false_eq_true, true_and, false_and]
    rw [hloop]
    unfold decimalValue
    by_cases h32 : (c :: cs).foldl (fun n c => n * 10 + (c.toNat - 48)) 0 ≤ 2 ^ 32 - 1
    · rw [if_pos h32]
      by_cases h31 : (c :: cs).foldl (fun n c => n * 10 + (c.toNat - 48)) 0 < 2 ^ 31
      · rw [if_pos h31]
        simp only [ge_iff_le, not_le.mpr h31, if_false]
      · rw [if_neg h31]
        simp only [ge_iff_le, not_lt.mp h31, if_true]
    · rw [if_neg h32, if_neg]
      have h2 : (2 : Nat) ^ 32 - 1 = 4294967295 := by norm_num
      rw [h2] at h32
      have h3 : (2 : Nat) ^ 31 = 2147483648 := by norm_num
      rw [h3]
      omega

theorem isNumeral_digits {w : List Char} (h : isNumeral w = true) :
    w ≠ [] ∧ ∀ c ∈ w, inClass [('0', '9')] c = true := by
  cases w with
  | nil => simp [isNumeral] at h
  | cons c cs =>
    refine ⟨by simp, ?_⟩
    simp only [isNumeral, Bool.or_eq_true, Bool.and_eq_true, beq_iff_eq, List.isEmpty_iff,
      List.all_eq_true] at h
    intro x hx
    rcases h with ⟨h0, hcs⟩ | ⟨h1, hcs⟩
    · subst h0 hcs
      simp only [List.mem_singleton] at hx
      subst hx
      decide
    · rcases List.mem_cons.mp hx with hx | hx
      · subst hx; exact digit_of_nonzero h1
      · exact hcs x hx

theorem toUint32_natCast (n : Nat) (h : n < 2 ^ 31) : toUint32 (n : Int) = n := by
  unfold toUint32
  have h3 : (2 : Nat) ^ 31 = 2147483648 := by norm_num
  rw [h3] at h
  omega

theorem decimalValue_snoc (w : List Char) (d : Char) :
    decimalValue (w ++ [d]) = decimalValue w * 10 + (d.toNat - 48) := by
  simp [decimalValue, List.foldl_append]

theorem decimalValue_pos {c : Char} {t : List Char} (hc : inClass [('0', '9')] c = true)
    (h0 : c ≠ '0') : 1 ≤ decimalValue (c :: t) := by
  have h1 : 49 ≤ c.toNat := by
    rw [inClass_digit] at hc
    by_contra h
    exact h0 (char_eq_of_toNat (by omega : c.toNat = 48))
  have := foldl_value_ge t (0 * 10 + (c.toNat - 48))
  unfold decimalValue
  simp only [List.foldl_cons]
  omega

/-- Printing the value of a digit sequence without a superfluous leading zero
gives the sequence back. -/
theorem formatLoop_value (w : List Char) :
    (∀ c ∈ w, inClass [('0', '9')] c = true) → w ≠ [] →
    (∀ c t, w = c :: t → c ≠ '0' ∨ t = []) →
    ∀ fuel acc, decimalValue w < fuel →
      formatLoop fuel (decimalValue w) acc = w ++ acc := by
  induction w using List.reverseRecOn with
  | nil => intro _ h; exact absurd rfl h
  | append_singleton init d ih =>
    intro hdig _ hlead fuel acc hfuel
    have hd := (inClass_digit d).mp (hdig d (by simp))
    have hchar : Char.ofNat (48 + (d.toNat - 48)) = d := by
      have : 48 + (d.toNat - 48) = d.toNat := by omega
      rw [this, Char.ofNat_toNat]
    rw [decimalValue_snoc] at hfuel ⊢
    cases fuel with
    | zero => omega
    | succ fuel =>
      rw [formatLoop]
      cases init with
      | nil =>
        have hv : decimalValue [] = 0 := rfl
        rw [hv]
        have hlt : 0 * 10 + (d.toNat - 48) < 10 := by omega
        rw [if_pos hlt]
        simp only [Nat.zero_mul, Nat.zero_add, hchar, List.nil_append]
        rfl
      | cons c t =>
        have hc0 : c ≠ '0' := by
          rcases hlead c (t ++ [d]) rfl with h | h
          · exact h
          · simp at h
        have hcd : inClass [('0', '9')] c = true := hdig c (by simp)
        have hpos := decimalValue_pos (t := t) hcd hc0
        have hge : ¬ decimalValue (c :: t) * 10 + (d.toNat - 48) < 10 := by omega
        rw [if_neg hge]
        have hdiv : (decimalValue (c :: t) * 10 + (d.toNat - 48)) / 10
            = decimalValue (c :: t) := by omega
        have hmod : (decimalValue (c :: t) * 10 + (d.toNat - 48)) % 10 = d.toNat - 48 := by
          omega
        rw [hdiv, hmod, hchar]
        rw [ih (fun x hx => hdig x (by simp at hx ⊢; tauto)) (by simp)
          (fun c' t' h => by
            simp only [List.cons.injEq] at h
            exact Or.inl (h.1 ▸ hc0)) fuel (d :: acc) (by omega)]
        simp

theorem isNumeral_lead {w : List Char} (h : isNumeral w = true) :
    ∀ c t, w = c :: t → c ≠ '0' ∨ t = [] := by
  intro c t hw
  subst hw
  simp only [isNumeral, Bool.or_eq_true, Bool.and_eq_true, beq_iff_eq, List.isEmpty_iff] at h
  rcases h with ⟨_, ht⟩ | ⟨h1, _⟩
  · exact Or.inr ht
  · exact Or.inl (nonzero_ne_zero h1)

/-- Printing the value of a numeric component gives its text back. -/
theorem formatUint_value {w : List Char} (h : isNumeral w = true) :
    formatUint (decimalValue w) = String.mk w := by
  unfold formatUint
  have hd := isNumeral_digits h
  rw [formatLoop_value w hd.2 hd.1 (isNumeral_lead h) _ [] (Nat.lt_succ_self _)]
  simp

/-! ## The leftmost search -/

theorem search_head {re : Re} {l : List Char} {st : MState} (h : matchAt re l = some st) :
    search re l = some (l, st) := by
  cases l with
  | nil => simp [search, h]
  | cons c cs => simp [search, h]

/-- The search returns the first position at which the anchored match
succeeds. -/
theorem search_some {re : Re} :
    ∀ {l x : List Char} {st : MState}, search re l = some (x, st) →
      ∃ i, i ≤ l.length ∧ x = l.drop i ∧ matchAt re x = some st ∧
        ∀ j, j < i → matchAt re (l.drop j) = none := by
  intro l
  induction l with
  | nil =>
    intro x st h
    rw [search] at h
    cases hm : matchAt re [] with
    | none => rw [hm] at h; cases h
    | some st0 =>
      rw [hm] at h
      simp only [Option.map_some', Option.some.injEq, Prod.mk.injEq] at h
      obtain ⟨hx, hst⟩ := h
      subst hx hst
      exact ⟨0, le_refl _, rfl, hm, fun j hj => absurd hj (Nat.not_lt_zero j)⟩
  | cons c cs ih =>
    intro x st h
    rw [search] at h
    cases hm : matchAt re (c :: cs) with
    | some st0 =>
      rw [hm] at h
      simp only [Option.some.injEq, Prod.mk.injEq] at h
      obtain ⟨hx, hst⟩ := h
      subst hx hst
      exact ⟨0, Nat.zero_le _, rfl, hm, fun j hj => absurd hj (Nat.not_lt_zero j)⟩
    | none =>
      rw [hm] at h
      obtain ⟨i, hi, hx, hmx, hbefore⟩ := ih h
      refine ⟨i + 1, by simpa using hi, by simpa using hx, hmx, ?_⟩
      intro j hj
      cases j with
      | zero => simpa using hm
      | succ j => simpa using hbefore j (by omega)

/-- When the search fails, the anchored match fails at every position. -/
theorem search_none {re : Re} :
    ∀ {l : List Char}, search re l = none →
      ∀ j, j ≤ l.length → matchAt re (l.drop j) = none := by
  intro l
  induction l with
  | nil =>
    intro h j hj
    rw [search] at h
    have hj0 : j = 0 := by simpa using hj
    subst hj0
    cases hm : matchAt re [] with
    | none => simpa using hm
    | some st0 => rw [hm] at h; cases h
  | cons c cs ih =>
    intro h j hj
    rw [search] at h
    cases hm : matchAt re (c :: cs) with
    | some st0 => rw [hm] at h; cases h
    | none =>
      rw [hm] at h
      cases j with
      | zero => simpa using hm
      | succ j => simpa using ih h j (by simpa using hj)

/-- An anchored match consumed a word of the language. -/
theorem matchAt_sound {re : Re} {l : List Char} {st : MState} (h : matchAt re l = some st) :
    ∃ u, l = u ++ st.rest ∧ Lang re u := by
  obtain ⟨u, st', hu, hl, hk⟩ := run_sound re _ _ _ h
  cases hk
  exact ⟨u, hl, hu⟩

/-- Where the anchored match fails, no word of the language starts. -/
theorem matchAt_none {re : Re} {l : List Char} (h : matchAt re l = none) :
    ∀ u v, l = u ++ v → ¬ Lang re u := by
  intro u v hl hu
  have := run_complete hu ⟨l, []⟩ some v hl (fun _ => rfl)
  unfold matchAt at h
  rw [h] at this
  cases this

/-! ## `extractSemVer` in terms of the search -/

theorem extractSemVer_of_search_none {s : String} (h : search relRE s.data = none) :
    extractSemVer s = (none, some (.errorf versionFormat s)) := by
  simp [extractSemVer, FindStringSubmatch, h]

theorem extractSemVer_of_search_some {s : String} {x : List Char} {st : MState}
    (h : search relRE s.data = some (x, st)) : extractSemVer s = ofCaps st.caps := by
  have hr : List.range 10 = [0, 1, 2, 3, 4, 5, 6, 7, 8, 9] := by decide
  simp only [extractSemVer, FindStringSubmatch, h, hr, List.map, List.length_cons,
    List.length_nil, idx, List.getD_cons_succ, List.getD_cons_zero, ofCaps]
  rfl

/-! ## The committed scan on a canonical version text -/

theorem det_preRe_nil (caps : List (Nat × List Char)) :
    det preRe ⟨[], caps⟩ = some ⟨[], caps⟩ := by
  unfold preRe
  rw [det_opt, det_group, det_seq, det_lit_nil]
  rfl

theorem det_buildRe_nil (caps : List (Nat × List Char)) :
    det buildRe ⟨[], caps⟩ = some ⟨[], caps⟩ := by
  unfold buildRe
  rw [det_opt, det_group, det_seq, det_lit_nil]
  rfl

theorem det_preRe_ident {q : List Char} (hq : isIdent q = true)
    (caps : List (Nat × List Char)) :
    det preRe ⟨'-' :: q, caps⟩ = some ⟨[], (5, '-' :: q) :: (6, q) :: caps⟩ := by
  have hbody : det (.seq (.lit '-')
      (.seq (.group 6 identRe)
        (.star (.group 7 (.seq (.lit '.') (.group 8 identRe))))))
      ⟨('-' :: q) ++ [], caps⟩ = some ⟨[], (6, q) :: caps⟩ := by
    rw [List.append_nil, det_seq, det_lit_cons, if_pos rfl, Option.some_bind, det_seq]
    have := det_ident_append 6 hq [] (fun c t h => by cases h) caps
    rw [List.append_nil] at this
    rw [this, Option.some_bind, det_star]
    rfl
  have := det_group_append (n := 5) hbody
  rw [List.append_nil] at this
  unfold preRe
  rw [det_opt, this]
  rfl

theorem det_tail_nil (caps : List (Nat × List Char)) :
    det (.seq preRe buildRe) ⟨[], caps⟩ = some ⟨[], caps⟩ := by
  rw [det_seq, det_preRe_nil, Option.some_bind, det_buildRe_nil]

theorem det_tail_ident {q : List Char} (hq : isIdent q = true)
    (caps : List (Nat × List Char)) :
    det (.seq preRe buildRe) ⟨'-' :: q, caps⟩
      = some ⟨[], (5, '-' :: q) :: (6, q) :: caps⟩ := by
  rw [det_seq, det_preRe_ident hq, Option.some_bind, det_buildRe_nil]

/-- The scan from the major number on, for three numeric components and a
tail that does not start with a digit. -/
theorem det_majorRe_of_tail {M m p : List Char} (hM : isNumeral M = true)
    (hm : isNumeral m = true) (hp : isNumeral p = true) (tail : List Char)
    (ht : ∀ c t, tail = c :: t → inClass [('0', '9')] c = false)
    (caps : List (Nat × List Char)) :
    det majorRe ⟨M ++ '.' :: (m ++ '.' :: (p ++ tail)), caps⟩
      = det (.seq preRe buildRe) ⟨tail, (4, p) :: (3, m) :: (2, M) :: caps⟩ := by
  have hdot : ∀ (l : List Char) c t, '.' :: l = c :: t → inClass [('0', '9')] c = false := by
    intro l c t h
    simp only [List.cons.injEq] at h
    rw [← h.1]
    decide
  unfold majorRe
  rw [det_seq, det_num_append 2 hM _ (hdot _), Option.some_bind, det_seq, det_lit_cons,
    if_pos rfl, Option.some_bind]
  unfold minorRe
  rw [det_seq, det_num_append 3 hm _ (hdot _), Option.some_bind, det_seq, det_lit_cons,
    if_pos rfl, Option.some_bind]
  unfold patchRe
  rw [det_seq, det_num_append 4 hp _ ht, Option.some_bind]

theorem det_prefixRe_v (rest : List Char) (caps : List (Nat × List Char)) :
    det prefixRe ⟨'v' :: rest, caps⟩ = some ⟨rest, (1, ['v']) :: caps⟩ := by
  have hbody : det (.alt (.lit 'v') (Re.word "release-v".data)) ⟨['v'] ++ rest, caps⟩
      = some ⟨rest, caps⟩ := by
    rw [List.singleton_append, det_alt, det_lit_cons, if_pos rfl]
    rfl
  have := det_group_append (n := 1) hbody
  rw [List.singleton_append] at this
  change det (.opt prefixBody) _ = _
  unfold prefixBody
  rw [det_opt, this]
  rfl

theorem det_word_append : ∀ (w : List Char), w ≠ [] → ∀ (rest : List Char)
    (caps : List (Nat × List Char)), det (Re.word w) ⟨w ++ rest, caps⟩ = some ⟨rest, caps⟩
  | [], h, _, _ => absurd rfl h
  | [c], _, rest, caps => by
    rw [Re.word, List.singleton_append, det_lit_cons, if_pos rfl]
  | c :: d :: cs, _, rest, caps => by
    rw [Re.word, List.cons_append, det_seq, det_lit_cons, if_pos rfl, Option.some_bind]
    · exact det_word_append (d :: cs) (by simp) rest caps
    · simp

theorem det_prefixRe_release (rest : List Char) (caps : List (Nat × List Char)) :
    det prefixRe ⟨"release-v".data ++ rest, caps⟩
      = some ⟨rest, (1, "release-v".data) :: caps⟩ := by
  have hbody : det (.alt (.lit 'v') (Re.word "release-v".data))
      ⟨"release-v".data ++ rest, caps⟩ = some ⟨rest, caps⟩ := by
    rw [det_alt, det_word_append _ (by decide)]
    have : det (.lit 'v') ⟨"release-v".data ++ rest, caps⟩ = none := by
      change det (.lit 'v') ⟨'r' :: _, caps⟩ = none
      rw [det_lit_cons, if_neg (by decide)]
    rw [this]
    rfl
  have := det_group_append (n := 1) hbody
  change det (.opt prefixBody) _ = _
  unfold prefixBody
  rw [det_opt, this]
  rfl

theorem det_prefixRe_digit {c : Char} (hc : inClass [('0', '9')] c = true) (t : List Char)
    (caps : List (Nat × List Char)) :
    det prefixRe ⟨c :: t, caps⟩ = some ⟨c :: t, caps⟩ := by
  change det (.opt prefixBody) _ = _
  rw [det_opt]
  cases h : det prefixBody ⟨c :: t, caps⟩ with
  | none => rfl
  | some st1 =>
    obtain ⟨c', t', hrest, hc'⟩ := prefixBody_head h
    simp only [List.cons.injEq] at hrest
    have hc2 : inClass [('0', '9')] c' = true := hrest.1 ▸ hc
    rcases hc' with h' | h' <;> (subst h'; exact absurd hc2 (by decide))

theorem isNumeral_head {w : List Char} (h : isNumeral w = true) :
    ∃ c t, w = c :: t ∧ inClass [('0', '9')] c = true := by
  cases w with
  | nil => simp [isNumeral] at h
  | cons c t => exact ⟨c, t, rfl, (isNumeral_digits h).2 c (by simp)⟩

theorem det_relRE_eq (st : MState) :
    det relRE st = (det prefixRe st).bind (fun st' => det majorRe st') := by
  rw [relRE_eq, det_seq]

/-- Result of `ofCaps` when the three numbers are numeric components that fit. -/
theorem ofCaps_eq {caps : List (Nat × List Char)} {M m p : List Char}
    (h2 : capture caps 2 = M) (h3 : capture caps 3 = m) (h4 : capture caps 4 = p)
    (hM : isNumeral M = true) (hm : isNumeral m = true) (hp : isNumeral p = true)
    (bM : decimalValue M < 2 ^ 31) (bm : decimalValue m < 2 ^ 31)
    (bp : decimalValue p < 2 ^ 31) :
    ofCaps caps =
      (some
        { Major := decimalValue M
          Minor := decimalValue m
          Patch := decimalValue p
          PreRelease := String.mk (capture caps 6)
          Build := String.mk (capture caps 9) }, none) := by
  unfold ofCaps
  rw [h2, h3, h4,
    ParseInt_digits M (isNumeral_digits hM).1 (isNumeral_digits hM).2,
    ParseInt_digits m (isNumeral_digits hm).1 (isNumeral_digits hm).2,
    ParseInt_digits p (isNumeral_digits hp).1 (isNumeral_digits hp).2,
    if_pos bM, if_pos bm, if_pos bp]
  simp only [toUint32_natCast _ bM, toUint32_natCast _ bm, toUint32_natCast _ bp]

/-- A successful `ofCaps` on numeric components: they fit and give the fields. -/
theorem ofCaps_inv {caps : List (Nat × List Char)} {r : semVerInfo}
    (h : ofCaps caps = (some r, none))
    (hM : isNumeral (capture caps 2) = true) (hm : isNumeral (capture caps 3) = true)
    (hp : isNumeral (capture caps 4) = true) :
    decimalValue (capture caps 2) < 2 ^ 31 ∧ decimalValue (capture caps 3) < 2 ^ 31 ∧
      decimalValue (capture caps 4) < 2 ^ 31 ∧
      r = { Major := decimalValue (capture caps 2)
            Minor := decimalValue (capture caps 3)
            Patch := decimalValue (capture caps 4)
            PreRelease := String.mk (capture caps 6)
            Build := String.mk (capture caps 9) } := by
  unfold ofCaps at h
  rw [ParseInt_digits _ (isNumeral_digits hM).1 (isNumeral_digits hM).2,
    ParseInt_digits _ (isNumeral_digits hm).1 (isNumeral_digits hm).2,
    ParseInt_digits _ (isNumeral_digits hp).1 (isNumeral_digits hp).2] at h
  by_cases bM : decimalValue (capture caps 2) < 2 ^ 31
  · rw [if_pos bM] at h
    by_cases bm : decimalValue (capture caps 3) < 2 ^ 31
    · rw [if_pos bm] at h
      by_cases bp : decimalValue (capture caps 4) < 2 ^ 31
      · rw [if_pos bp] at h
        simp only [toUint32_natCast _ bM, toUint32_natCast _ bm, toUint32_natCast _ bp,
          Prod.mk.injEq, Option.some.injEq, and_true] at h
        exact ⟨bM, bm, bp, h.symm⟩
      · rw [if_neg bp] at h
        simp at h
    · rw [if_neg bm] at h
      simp at h
  · rw [if_neg bM] at h
    simp at h

/-! ## Words of the grammar -/

theorem lang_star_cls_of_all (rs : List (Char × Char)) :
    ∀ cs : List Char, (∀ x ∈ cs, inClass rs x = true) → Lang (.star (.cls rs)) cs
  | [], _ => Lang.starNil
  | c :: cs, h =>
    Lang.starCons (u := [c]) (Lang.cls rs c (h c (by simp)))
      (lang_star_cls_of_all rs cs (fun x hx => h x (by simp [hx])))

theorem lang_star_cls_all {rs : List (Char × Char)} {re : Re} {v : List Char}
    (h : Lang re v) (hre : re = .star (.cls rs)) : ∀ x ∈ v, inClass rs x = true := by
  induction h with
  | lit c => cases hre
  | cls _ c _ => cases hre
  | seq _ _ _ _ => cases hre
  | altL _ _ => cases hre
  | altR _ _ => cases hre
  | optNone => cases hre
  | optSome _ _ => cases hre
  | group _ _ => cases hre
  | starNil => intro x hx; cases hx
  | @starCons a u v hu _ _ ihv =>
    cases hre
    intro x hx
    rcases List.mem_append.mp hx with hx | hx
    · cases hu with
      | cls _ c hc =>
        simp only [List.mem_singleton] at hx
        subst hx
        exact hc
    · exact ihv rfl x hx

/-- A numeric component is a word of `0|[1-9]\d*`. -/
theorem lang_of_isNumeral {w : List Char} (h : isNumeral w = true) : Lang numRe w := by
  cases w with
  | nil => simp [isNumeral] at h
  | cons c cs =>
    simp only [isNumeral, Bool.or_eq_true, Bool.and_eq_true, beq_iff_eq, List.isEmpty_iff,
      List.all_eq_true] at h
    rcases h with ⟨h0, hcs⟩ | ⟨h1, hcs⟩
    · subst h0 hcs
      exact Lang.altL (Lang.lit '0')
    · exact Lang.altR (Lang.seq (u := [c]) (Lang.cls _ c h1) (lang_star_cls_of_all _ cs hcs))

/-- A word of `0|[1-9]\d*` is a numeric component. -/
theorem isNumeral_of_lang {w : List Char} (h : Lang numRe w) : isNumeral w = true := by
  unfold numRe nonzeroC digitC at h
  cases h with
  | altL h0 =>
    cases h0
    rfl
  | altR h1 =>
    cases h1 with
    | seq hc hs =>
      cases hc with
      | cls _ c hc =>
        have := lang_star_cls_all hs rfl
        simp only [List.singleton_append, isNumeral, hc, Bool.true_and, Bool.or_eq_true,
          List.all_eq_true]
        exact Or.inr this

/-- A word of `(v|release-v)?` holds no dot and no digit. -/
theorem lang_prefixRe {w : List Char} (h : Lang prefixRe w) :
    w = [] ∨ w = ['v'] ∨ w = "release-v".data := by
  unfold prefixRe at h
  cases h with
  | optNone => exact Or.inl rfl
  | optSome hg =>
    cases hg with
    | group ha =>
      cases ha with
      | altL hv => cases hv; exact Or.inr (Or.inl rfl)
      | altR hr =>
        right; right
        have hw : Re.word "release-v".data =
            .seq (.lit 'r') (.seq (.lit 'e') (.seq (.lit 'l') (.seq (.lit 'e')
              (.seq (.lit 'a') (.seq (.lit 's') (.seq (.lit 'e') (.seq (.lit '-')
                (.lit 'v')))))))) := rfl
        rw [hw] at hr
        cases hr with | seq h1 hr =>
        cases hr with | seq h2 hr =>
        cases hr with | seq h3 hr =>
        cases hr with | seq h4 hr =>
        cases hr with | seq h5 hr =>
        cases hr with | seq h6 hr =>
        cases hr with | seq h7 hr =>
        cases hr with | seq h8 hr =>
        cases h1; cases h2; cases h3; cases h4; cases h5; cases h6; cases h7; cases h8
        cases hr
        rfl

/-- Shape of a word of the version grammar. -/
theorem lang_relRE {w : List Char} (h : Lang relRE w) :
    ∃ pfx M m p tail, w = pfx ++ (M ++ '.' :: (m ++ '.' :: (p ++ tail))) ∧
      Lang prefixRe pfx ∧ isNumeral M = true ∧ isNumeral m = true ∧ isNumeral p = true ∧
      Lang (.seq preRe buildRe) tail := by
  unfold relRE at h
  cases h with | seq hpfx h =>
  cases h with | seq hM h =>
  cases h with | seq hd1 h =>
  cases h with | seq hm h =>
  cases h with | seq hd2 h =>
  cases h with | seq hp htail =>
  cases hM with | group hM =>
  cases hm with | group hm =>
  cases hp with | group hp =>
  cases hd1
  cases hd2
  exact ⟨_, _, _, _, _, by simp, hpfx, isNumeral_of_lang hM, isNumeral_of_lang hm,
    isNumeral_of_lang hp, htail⟩

/-- Words built from the components belong to the version grammar. -/
theorem lang_relRE_of {pfx M m p tail : List Char} (hpfx : Lang prefixRe pfx)
    (hM : isNumeral M = true) (hm : isNumeral m = true) (hp : isNumeral p = true)
    (htail : Lang (.seq preRe buildRe) tail) :
    Lang relRE (pfx ++ (M ++ '.' :: (m ++ '.' :: (p ++ tail)))) := by
  unfold relRE
  refine Lang.seq hpfx (Lang.seq (Lang.group (lang_of_isNumeral hM)) ?_)
  refine Lang.seq (u := ['.']) (Lang.lit '.') (Lang.seq (Lang.group (lang_of_isNumeral hm)) ?_)
  exact Lang.seq (u := ['.']) (Lang.lit '.')
    (Lang.seq (Lang.group (lang_of_isNumeral hp)) htail)

/-! ## Anatomy of a successful scan of `relRE` -/

theorem det_lit_inv {c : Char} {st st' : MState} (h : det (.lit c) st = some st') :
    st.rest = c :: st'.rest ∧ st'.caps = st.caps := by
  rcases st with ⟨rest, caps⟩
  cases rest with
  | nil => rw [det_lit_nil] at h; cases h
  | cons x xs =>
    rw [det_lit_cons] at h
    by_cases hx : x = c
    · rw [if_pos hx] at h
      cases h
      exact ⟨by rw [hx], rfl⟩
    · rw [if_neg hx] at h; cases h

theorem bind_eq_some' {f : MState → Option MState} {o : Option MState} {y : MState}
    (h : o.bind f = some y) : ∃ x, o = some x ∧ f x = some y := by
  cases o with
  | none => cases h
  | some x => exact ⟨x, rfl, h⟩

/-- The pre-release capture after the scan of `preRe`: empty when group 6 was
empty before and the group did not match, an identifier otherwise. -/
theorem det_preRe_capture {st st' : MState} (h : det preRe st = some st')
    (h6 : capture st.caps 6 = []) :
    capture st'.caps 6 = [] ∨ isIdent (capture st'.caps 6) = true := by
  unfold preRe at h
  rw [det_opt] at h
  cases hb : det (.group 5 (.seq (.lit '-') (.seq (.group 6 identRe)
      (.star (.group 7 (.seq (.lit '.') (.group 8 identRe))))))) st with
  | none =>
    rw [hb] at h
    simp only [Option.getD_none, Option.some.injEq] at h
    subst h
    exact Or.inl h6
  | some s4 =>
    rw [hb] at h
    simp only [Option.getD_some, Option.some.injEq] at h
    subst h
    right
    obtain ⟨u, s5, hinner, _, _, hs4⟩ := det_group_inv hb
    rw [det_seq] at hinner
    obtain ⟨⟨ra, ca⟩, hsa, hinner⟩ := bind_eq_some' hinner
    rw [det_seq] at hinner
    obtain ⟨sb, hsb, hstar⟩ := bind_eq_some' hinner
    obtain ⟨q, _, hq, hcaps⟩ := det_ident_inv hsb
    have h6' : capture s5.caps 6 = capture sb.caps 6 :=
      capture_det hstar 6 (by decide)
    rw [hs4]
    simp only [capture]
    rw [if_neg (by decide), h6', hcaps]
    simp only [capture, if_true]
    exact hq

/-- A successful scan of `relRE` read a prefix, three numeric components
between dots and a tail; groups 2, 3 and 4 hold the components, and group 6
is empty or an identifier. -/
theorem det_relRE_anatomy {l : List Char} {st : MState} (h : det relRE ⟨l, []⟩ = some st) :
    ∃ pfx M m p tail, l = pfx ++ (M ++ '.' :: (m ++ '.' :: (p ++ (tail ++ st.rest)))) ∧
      Lang prefixRe pfx ∧ isNumeral M = true ∧ isNumeral m = true ∧ isNumeral p = true ∧
      Lang (.seq preRe buildRe) tail ∧
      capture st.caps 2 = M ∧ capture st.caps 3 = m ∧ capture st.caps 4 = p ∧
      (capture st.caps 6 = [] ∨ isIdent (capture st.caps 6) = true) := by
  rw [det_relRE_eq] at h
  obtain ⟨⟨r0, c0⟩, hs0, h⟩ := bind_eq_some' h
  obtain ⟨pfx, hl0, hpfx⟩ := det_sound _ _ _ hs0
  obtain ⟨pushed0, hc0, hk0⟩ := det_caps _ _ _ hs0
  simp only at hl0 hc0
  unfold majorRe at h
  rw [det_seq] at h
  obtain ⟨s1, hs1, h⟩ := bind_eq_some' h
  obtain ⟨M, hl1, hM, hc1⟩ := det_num_inv hs1
  rw [det_seq] at h
  obtain ⟨⟨r1', c1'⟩, hs1', h⟩ := bind_eq_some' h
  obtain ⟨hl1', hc1'⟩ := det_lit_inv hs1'
  unfold minorRe at h
  rw [det_seq] at h
  obtain ⟨s2, hs2, h⟩ := bind_eq_some' h
  obtain ⟨m, hl2, hm, hc2⟩ := det_num_inv hs2
  rw [det_seq] at h
  obtain ⟨⟨r2', c2'⟩, hs2', h⟩ := bind_eq_some' h
  obtain ⟨hl2', hc2'⟩ := det_lit_inv hs2'
  unfold patchRe at h
  rw [det_seq] at h
  obtain ⟨s3, hs3, h⟩ := bind_eq_some' h
  obtain ⟨p, hl3, hp, hc3⟩ := det_num_inv hs3
  obtain ⟨tail, hl4, htail⟩ := det_sound _ _ _ h
  simp only at hl1' hc1' hl2' hc2'
  have hcaps3 : s3.caps = (4, p) :: (3, m) :: (2, M) :: pushed0 := by
    rw [hc3, hc2', hc2, hc1', hc1, hc0, List.append_nil]
  have hk0' : ∀ q ∈ pushed0, q.1 = 1 := by
    intro q hq
    have := hk0 q hq
    simpa [prefixRe, groups, Re.word] using this
  have hg : groups (.seq preRe buildRe) = [5, 6, 7, 8, 9, 10] := by
    simp [groups, preRe, buildRe, identRe, alnumC, nonzeroC, digitC, letterC, Re.plus]
  have hcap : ∀ n, n ∉ [5, 6, 7, 8, 9, 10] → capture st.caps n = capture s3.caps n := by
    intro n hn
    exact capture_det h n (by rw [hg]; exact hn)
  have h6pre : capture s3.caps 6 = [] := by
    apply capture_nil_of_not_mem
    intro q hq
    rw [hcaps3] at hq
    simp only [List.mem_cons] at hq
    rcases hq with hq | hq | hq | hq
    · rw [hq]; exact (by decide : (4 : Nat) ≠ 6)
    · rw [hq]; exact (by decide : (3 : Nat) ≠ 6)
    · rw [hq]; exact (by decide : (2 : Nat) ≠ 6)
    · rw [hk0' q hq]; decide
  refine ⟨pfx, M, m, p, tail, ?_, hpfx, hM, hm, hp, htail, ?_, ?_, ?_, ?_⟩
  · rw [hl0, hl1, hl1', hl2, hl2', hl3, hl4]
  · rw [hcap 2 (by decide), hcaps3]; simp [capture]
  · rw [hcap 3 (by decide), hcaps3]; simp [capture]
  · rw [hcap 4 (by decide), hcaps3]; simp [capture]
  · rw [det_seq] at h
    obtain ⟨s4, hs4, hbuild⟩ := bind_eq_some' h
    have hb : capture st.caps 6 = capture s4.caps 6 :=
      capture_det hbuild 6 (by simp [groups, buildRe, alnumC, Re.plus])
    rw [hb]
    exact det_preRe_capture hs4 h6pre

/-! ## Inputs without a version -/

theorem conformsAt_of_search_some {s : String} {x : List Char} {st : MState}
    (h : search relRE s.data = some (x, st)) : ContainsVersion s := by
  obtain ⟨i, hi, hx, hm, _⟩ := search_some h
  obtain ⟨u, hu, hl⟩ := matchAt_sound hm
  exact ⟨i, u, st.rest, by rw [← hx]; exact hu, hl, hi⟩

theorem search_none_of_not_contains {s : String} (h : ¬ ContainsVersion s) :
    search relRE s.data = none := by
  cases hs : search relRE s.data with
  | none => rfl
  | some r =>
    rcases r with ⟨x, st⟩
    exact absurd (conformsAt_of_search_some hs) h

/-- A word of the version grammar holds a digit. -/
theorem lang_relRE_digit {w : List Char} (h : Lang relRE w) :
    ∃ c ∈ w, inClass [('0', '9')] c = true := by
  obtain ⟨pfx, M, m, p, tail, hw, _, hM, _, _, _⟩ := lang_relRE h
  obtain ⟨c, t, hc, hd⟩ := isNumeral_head hM
  exact ⟨c, by rw [hw, hc]; simp, hd⟩

/-- A text without a digit contains no version. -/
theorem not_containsVersion_of_no_digit (s : String)
    (h : s.data.all (fun c => !inClass [('0', '9')] c) = true) : ¬ ContainsVersion s := by
  rintro ⟨i, w, post, hdrop, hl, _⟩
  obtain ⟨c, hc, hd⟩ := lang_relRE_digit hl
  have hmem : c ∈ s.data := by
    apply List.mem_of_mem_drop (n := i)
    rw [hdrop]
    exact List.mem_append_left _ hc
  rw [List.all_eq_true] at h
  have := h c hmem
  rw [hd] at this
  cases this

theorem ofCaps_one_nil (caps : List (Nat × List Char)) :
    ((ofCaps caps).1 = none ↔ (ofCaps caps).2 ≠ none) := by
  unfold ofCaps
  cases ParseInt (String.mk (capture caps 2)) with
  | error e => simp
  | ok a =>
    cases ParseInt (String.mk (capture caps 3)) with
    | error e => simp
    | ok b =>
      cases ParseInt (String.mk (capture caps 4)) with
      | error e => simp
      | ok c => simp

theorem extractSemVer_one_nil (t : String) :
    ((extractSemVer t).1 = none ↔ (extractSemVer t).2 ≠ none) := by
  cases hs : search relRE t.data with
  | none => rw [extractSemVer_of_search_none hs]; simp
  | some r =>
    rcases r with ⟨x, st⟩
    rw [extractSemVer_of_search_some hs]
    exact ofCaps_one_nil _

/-- The call `extract` never reads through a `nil` pointer: the pointer is
`nil` only together with an error, which is returned first. -/
theorem extract_no_panic (findOS : Except GoError String)
    (openSrc untar : String → Option GoError) : (extract findOS openSrc untar).isSome := by
  unfold extract
  cases findOS with
  | error err => rfl
  | ok filename =>
    simp only
    cases openSrc filename with
    | some err => rfl
    | none =>
      simp only
      cases untar filename with
      | some err => rfl
      | none =>
        simp only
        have h := extractSemVer_one_nil filename
        rcases hres : extractSemVer filename with ⟨v, e⟩
        rw [hres] at h
        cases e with
        | some err => cases v <;> rfl
        | none =>
          cases v with
          | some info => rfl
          | none => simp at h

/-! ## Extraction from a canonical text -/

theorem extractSemVer_of_det {s : String} {st : MState}
    (h : det relRE ⟨s.data, []⟩ = some st) : extractSemVer s = ofCaps st.caps := by
  rw [← matchAt_relRE] at h
  exact extractSemVer_of_search_some (search_head h)

/-- The scan of the optional prefix in front of a text that starts with a
digit: it reads the prefix and records at most group 1. -/
theorem det_prefixRe_core {pfx body : List Char}
    (hpfx : pfx = [] ∨ pfx = ['v'] ∨ pfx = "release-v".data)
    (hbody : ∃ c t, body = c :: t ∧ inClass [('0', '9')] c = true) :
    ∃ pc, (∀ q ∈ pc, q.1 = 1) ∧ det prefixRe ⟨pfx ++ body, []⟩ = some ⟨body, pc⟩ := by
  rcases hpfx with h | h | h
  · subst h
    obtain ⟨c, t, hb, hc⟩ := hbody
    subst hb
    exact ⟨[], by simp, det_prefixRe_digit hc t []⟩
  · subst h
    exact ⟨[(1, ['v'])], by simp, det_prefixRe_v body []⟩
  · subst h
    exact ⟨[(1, "release-v".data)], by simp, det_prefixRe_release body []⟩

/-- Extraction from a text made of an optional prefix, three numeric
components that fit and, optionally, a hyphen and one identifier. -/
theorem extractSemVer_core {s : String} {pfx M m p tail : List Char}
    (hs : s.data = pfx ++ (M ++ '.' :: (m ++ '.' :: (p ++ tail))))
    (hpfx : pfx = [] ∨ pfx = ['v'] ∨ pfx = "release-v".data)
    (hM : isNumeral M = true) (hm : isNumeral m = true) (hp : isNumeral p = true)
    (bM : decimalValue M < 2 ^ 31) (bm : decimalValue m < 2 ^ 31)
    (bp : decimalValue p < 2 ^ 31)
    (htail : tail = [] ∨ ∃ q, isIdent q = true ∧ tail = '-' :: q) :
    extractSemVer s =
      (some
        { Major := decimalValue M
          Minor := decimalValue m
          Patch := decimalValue p
          PreRelease := String.mk (tail.drop 1)
          Build := "" }, none) := by
  obtain ⟨c, t, hMc, hc⟩ := isNumeral_head hM
  obtain ⟨pc, hpc, hdet0⟩ := @det_prefixRe_core pfx (M ++ '.' :: (m ++ '.' :: (p ++ tail)))
    hpfx ⟨c, t ++ '.' :: (m ++ '.' :: (p ++ tail)), by rw [hMc]; rfl, hc⟩
  have ht : ∀ c t, tail = c :: t → inClass [('0', '9')] c = false := by
    intro c t h
    rcases htail with h0 | ⟨q, _, hq⟩
    · rw [h0] at h; cases h
    · rw [hq] at h
      simp only [List.cons.injEq] at h
      rw [← h.1]
      decide
  have hpcn : ∀ n, n ≠ 1 → capture pc n = [] := by
    intro n hn
    apply capture_nil_of_not_mem
    intro q hq
    rw [hpc q hq]
    exact fun h => hn h.symm
  have hdet : det relRE ⟨s.data, []⟩
      = det (.seq preRe buildRe) ⟨tail, (4, p) :: (3, m) :: (2, M) :: pc⟩ := by
    rw [hs, det_relRE_eq, hdet0, Option.some_bind, det_majorRe_of_tail hM hm hp tail ht]
  rcases htail with h0 | ⟨q, hq, hqt⟩
  · subst h0
    rw [det_tail_nil] at hdet
    rw [extractSemVer_of_det hdet]
    rw [ofCaps_eq (M := M) (m := m) (p := p) (by simp [capture]) (by simp [capture])
      (by simp [capture]) hM hm hp bM bm bp]
    simp [capture, hpcn]
  · subst hqt
    rw [det_tail_ident hq] at hdet
    rw [extractSemVer_of_det hdet]
    rw [ofCaps_eq (M := M) (m := m) (p := p) (by simp [capture]) (by simp [capture])
      (by simp [capture]) hM hm hp bM bm bp]
    simp [capture, hpcn]

/-! ## Bare versions and their dots -/

theorem split_first_dot : ∀ {X X' Y Y' : List Char},
    X ++ '.' :: Y = X' ++ '.' :: Y' → '.' ∉ X → '.' ∉ X' → X = X' ∧ Y = Y'
  | [], [], _, _, h, _, _ => by simpa using h
  | [], c :: t, _, _, h, _, hX' => by
    simp only [List.nil_append, List.cons_append, List.cons.injEq] at h
    exact absurd (by rw [← h.1]; simp) hX'
  | a :: X, [], _, _, h, hX, _ => by
    simp only [List.nil_append, List.cons_append, List.cons.injEq] at h
    exact absurd (by rw [h.1]; simp) hX
  | a :: X, c :: t, Y, Y', h, hX, hX' => by
    simp only [List.cons_append, List.cons.injEq] at h
    have := @split_first_dot X t _ _ h.2
      (fun hm => hX (by simp [hm])) (fun hm => hX' (by simp [hm]))
    exact ⟨by rw [h.1, this.1], this.2⟩

/-- In a text with exactly two dots, the text between the dots is fixed. -/
theorem between_dots {A B C X Y Z : List Char} (hA : '.' ∉ A) (hB : '.' ∉ B) (hC : '.' ∉ C)
    (hY : '.' ∉ Y) (h : A ++ '.' :: (B ++ '.' :: C) = X ++ '.' :: (Y ++ '.' :: Z)) :
    B = Y := by
  have hcount := congrArg (List.count '.') h
  simp only [List.count_append, List.count_cons_self, List.count_eq_zero_of_not_mem hA,
    List.count_eq_zero_of_not_mem hB, List.count_eq_zero_of_not_mem hC,
    List.count_eq_zero_of_not_mem hY] at hcount
  have hX : '.' ∉ X := by
    apply List.count_eq_zero.mp
    omega
  obtain ⟨_, h2⟩ := split_first_dot h hA hX
  exact (split_first_dot h2 hB hY).1

theorem no_dot_of_digits {w : List Char} (h : ∀ c ∈ w, inClass [('0', '9')] c = true) :
    '.' ∉ w := by
  intro hm
  have := h '.' hm
  revert this
  decide

theorem isDigits_all {w : List Char} (h : isDigits w = true) :
    ∀ c ∈ w, inClass [('0', '9')] c = true := by
  simp only [isDigits, Bool.and_eq_true, List.all_eq_true] at h
  exact h.2

theorem not_isNumeral_of_leadingZero {w : List Char} (h : hasLeadingZero w = true) :
    isNumeral w = false := by
  cases w with
  | nil => rfl
  | cons c t =>
    cases t with
    | nil => simp [hasLeadingZero] at h
    | cons d t =>
      simp only [hasLeadingZero, beq_iff_eq] at h
      subst h
      rfl

/-! ## The claims -/

/-- C1: on `1.2.3-alpha.1+001` the code returns the pre-release `alpha`, the
first identifier only, where the claim expects the whole text `alpha.1`. -/
theorem extractSemVer_preRelease_first_identifier :
    (extractSemVer "1.2.3-alpha.1+001").1.map (fun r => r.PreRelease) = some "alpha" ∧
      (extractSemVer "1.2.3-alpha.1+001").2 = none := by
  decide

/-- C2: on `1.2.3-alpha.1+001` the code returns the build text `+001`, with
the separator, where the claim expects `001`. -/
theorem extractSemVer_build_keeps_separator :
    (extractSemVer "1.2.3-alpha.1+001").1.map (fun r => r.Build) = some "+001" ∧
      (extractSemVer "1.2.3-alpha.1+001").2 = none := by
  decide

/-- C3, counterexample: the bare inputs `01.2.3` and `1.2.03` do not fail.
The search matches `1.2.3` after the leading zero, and `1.2.0` before the
rest of the patch number. -/
theorem extractSemVer_leading_zero_accepted :
    extractSemVer "01.2.3" = (some ⟨1, 2, 3, "", ""⟩, none) ∧
      extractSemVer "1.2.03" = (some ⟨1, 2, 0, "", ""⟩, none) := by
  decide

/-- C4, counterexample: the major numbers `2 ^ 31` and `2 ^ 32` are digit
sequences that do not start with `0`, and `extractSemVer` fails on them with
the range error of `ParseInt`. -/
theorem extractSemVer_v_range_error :
    isNumeral "2147483648".data = true ∧
      extractSemVer "v2147483648.0.0"
        = (none, some (.numError "2147483648" .ErrRange)) ∧
      isNumeral "4294967296".data = true ∧
      extractSemVer "v4294967296.0.0"
        = (none, some (.numError "4294967296" .ErrRange)) := by
  decide

/-- C6, counterexample: on `app-1.2.3-beta.2+exp.sha.5114f85.tar.gz` the
returned build text is not `exp.sha.5114f85`; it runs to the end of the input
and so ends with `.tar.gz`. -/
theorem extractSemVer_archive_build_differs :
    ∃ r, extractSemVer "app-1.2.3-beta.2+exp.sha.5114f85.tar.gz" = (some r, none) ∧
      r.Build ≠ "exp.sha.5114f85" ∧
      ∃ front, r.Build.data = front ++ ".tar.gz".data :=
  ⟨⟨1, 2, 3, "beta", "+exp.sha.5114f85.tar.gz"⟩, by decide, by decide,
    "+exp.sha.5114f85".data, by decide⟩

/-- C6, amended: on `app-1.2.3-beta.2+exp.sha.5114f85.tar.gz` the extraction
succeeds with Major 1, Minor 2, Patch 3, and the build text ends with
`exp.sha.5114f85.tar.gz`: the archive extension is part of it. -/
theorem extractSemVer_archive_build :
    ∃ r, extractSemVer "app-1.2.3-beta.2+exp.sha.5114f85.tar.gz" = (some r, none) ∧
      r.Major = 1 ∧ r.Minor = 2 ∧ r.Patch = 3 ∧
      ∃ front, r.Build.data = front ++ "exp.sha.5114f85.tar.gz".data :=
  ⟨⟨1, 2, 3, "beta", "+exp.sha.5114f85.tar.gz"⟩, by decide, rfl, rfl, rfl,
    ['+'], by decide⟩

/-- C7: `2147483648` is a valid component and is below `2 ^ 32`, so it fits
the `uint32` fields, and yet the code fails with the range error of the
signed `ParseInt` on the core version `2147483648.0.0`, with or without a
prefix, where the claim expects the three extractions to succeed. -/
theorem extractSemVer_prefix_range_error :
    isNumeral "2147483648".data = true ∧
      decimalValue "2147483648".data < 2 ^ 32 ∧
      extractSemVer "2147483648.0.0" = (none, some (.numError "2147483648" .ErrRange)) ∧
      extractSemVer "v2147483648.0.0" = (none, some (.numError "2147483648" .ErrRange)) ∧
      extractSemVer "release-v2147483648.0.0"
        = (none, some (.numError "2147483648" .ErrRange)) := by
  decide

/-- C10: `pgpVerify` returns no error exactly when both files open, the key
text parses and the detached-signature check of the manifest against the
signature returns no error; otherwise it returns the error of the first step
that fails, in the order signature file, manifest file, keyring, check. -/
theorem pgpVerify_fail_closed {File Keyring : Type} (env : PgpEnv File Keyring)
    (pubkey signature manifest : String) :
    (pgpVerify env pubkey signature manifest = none ↔
      ∃ sf mf keyring, env.osOpen signature = .ok sf ∧ env.osOpen manifest = .ok mf ∧
        env.ReadArmoredKeyRing pubkey = .ok keyring ∧
        env.CheckArmoredDetachedSignature keyring mf sf = none) ∧
    (∀ err, env.osOpen signature = .error err →
      pgpVerify env pubkey signature manifest = some err) ∧
    (∀ sf err, env.osOpen signature = .ok sf → env.osOpen manifest = .error err →
      pgpVerify env pubkey signature manifest = some err) ∧
    (∀ sf mf err, env.osOpen signature = .ok sf → env.osOpen manifest = .ok mf →
      env.ReadArmoredKeyRing pubkey = .error err →
      pgpVerify env pubkey signature manifest = some err) ∧
    (∀ sf mf keyring, env.osOpen signature = .ok sf → env.osOpen manifest = .ok mf →
      env.ReadArmoredKeyRing pubkey = .ok keyring →
      pgpVerify env pubkey signature manifest
        = env.CheckArmoredDetachedSignature keyring mf sf) := by
  unfold pgpVerify
  refine ⟨?_, ?_, ?_, ?_, ?_⟩
  · cases h1 : env.osOpen signature with
    | error e => simp
    | ok sf =>
      cases h2 : env.osOpen manifest with
      | error e => simp
      | ok mf =>
        cases h3 : env.ReadArmoredKeyRing pubkey with
        | error e => simp
        | ok keyring => simp
  · intro err h1; simp [h1]
  · intro sf err h1 h2; simp [h1, h2]
  · intro sf mf err h1 h2 h3; simp [h1, h2, h3]
  · intro sf mf keyring h1 h2 h3; simp [h1, h2, h3]

/-- C8: on an input that contains no substring of the version grammar,
`extractSemVer` returns no value and the error built from the format and the
input, whose message holds the quoted input; and on every input exactly one
of the returned value and the returned error is `nil`. -/
theorem extractSemVer_no_match (quote : String → String) (s : String)
    (h : ¬ ContainsVersion s) :
    extractSemVer s = (none, some (.errorf versionFormat s)) ∧
      (GoError.errorf versionFormat s).message quote =
        "version string " ++ quote s ++ " does not follow semantic versioning requirements" ∧
      ∀ t, ((extractSemVer t).1 = none ↔ (extractSemVer t).2 ≠ none) := by
  refine ⟨extractSemVer_of_search_none (search_none_of_not_contains h), ?_,
    extractSemVer_one_nil⟩
  apply String.ext
  simp [GoError.message, versionFormat, sprintfQ]

/-- C8, witness: `no-version-here` holds no digit, so it contains no version. -/
theorem extractSemVer_no_match_witness :
    ¬ ContainsVersion "no-version-here" ∧
      extractSemVer "no-version-here"
        = (none, some (.errorf versionFormat "no-version-here")) :=
  ⟨not_containsVersion_of_no_digit _ (by decide),
    (extractSemVer_no_match id "no-version-here"
      (not_containsVersion_of_no_digit _ (by decide))).1⟩

/-- C4, amended: for `s = "v" + major + "." + minor + "." + patch` where each
component is `0` or a digit sequence that does not start with `0`, and has a
value of at most `2 ^ 31 - 1`, `extractSemVer s` succeeds with the decimal
values of the components and with empty `PreRelease` and `Build`. -/
theorem extractSemVer_v_triple (major minor patch : String)
    (hM : isNumeral major.data = true) (hm : isNumeral minor.data = true)
    (hp : isNumeral patch.data = true)
    (bM : decimalValue major.data ≤ 2 ^ 31 - 1) (bm : decimalValue minor.data ≤ 2 ^ 31 - 1)
    (bp : decimalValue patch.data ≤ 2 ^ 31 - 1) :
    extractSemVer ("v" ++ major ++ "." ++ minor ++ "." ++ patch) =
      (some
        { Major := decimalValue major.data
          Minor := decimalValue minor.data
          Patch := decimalValue patch.data
          PreRelease := ""
          Build := "" }, none) := by
  have h31 : (2 : Nat) ^ 31 = 2147483648 := by norm_num
  have := @extractSemVer_core ("v" ++ major ++ "." ++ minor ++ "." ++ patch)
    ['v'] major.data minor.data patch.data []
    (by simp [String.data_append]) (Or.inr (Or.inl rfl)) hM hm hp
    (by omega) (by omega) (by omega) (Or.inl rfl)
  rw [this]
  rfl

/-- C4, witness: the text `v1.0.2147483647`, with the largest patch number
that is accepted. -/
theorem extractSemVer_v_triple_witness :
    extractSemVer ("v" ++ "1" ++ "." ++ "0" ++ "." ++ "2147483647") =
      (some ⟨1, 0, 2147483647, "", ""⟩, none) :=
  (extractSemVer_v_triple "1" "0" "2147483647" (by decide) (by decide) (by decide)
    (by decide) (by decide) (by decide)).trans (by decide)

/-- Discarding of the prefix inside the range that the signed parse accepts:
for a core version `major.minor.patch` whose components are `0` or digit
sequences that do not start with `0`, with values of at most `2 ^ 31 - 1`,
the extraction from the core version, from `v` followed by it and from
`release-v` followed by it succeeds with one and the same result: the decimal
values of the components and empty `PreRelease` and `Build`. -/
theorem extractSemVer_prefix_discarded (major minor patch : String)
    (hM : isNumeral major.data = true) (hm : isNumeral minor.data = true)
    (hp : isNumeral patch.data = true)
    (bM : decimalValue major.data ≤ 2 ^ 31 - 1) (bm : decimalValue minor.data ≤ 2 ^ 31 - 1)
    (bp : decimalValue patch.data ≤ 2 ^ 31 - 1) :
    extractSemVer (major ++ "." ++ minor ++ "." ++ patch) =
      (some
        { Major := decimalValue major.data
          Minor := decimalValue minor.data
          Patch := decimalValue patch.data
          PreRelease := ""
          Build := "" }, none) ∧
    extractSemVer ("v" ++ (major ++ "." ++ minor ++ "." ++ patch)) =
      extractSemVer (major ++ "." ++ minor ++ "." ++ patch) ∧
    extractSemVer ("release-v" ++ (major ++ "." ++ minor ++ "." ++ patch)) =
      extractSemVer (major ++ "." ++ minor ++ "." ++ patch) := by
  have h31 : (2 : Nat) ^ 31 = 2147483648 := by norm_num
  have h0 := @extractSemVer_core (major ++ "." ++ minor ++ "." ++ patch)
    [] major.data minor.data patch.data []
    (by simp [String.data_append]) (Or.inl rfl) hM hm hp
    (by omega) (by omega) (by omega) (Or.inl rfl)
  have h1 := @extractSemVer_core ("v" ++ (major ++ "." ++ minor ++ "." ++ patch))
    ['v'] major.data minor.data patch.data []
    (by simp [String.data_append]) (Or.inr (Or.inl rfl)) hM hm hp
    (by omega) (by omega) (by omega) (Or.inl rfl)
  have h2 := @extractSemVer_core ("release-v" ++ (major ++ "." ++ minor ++ "." ++ patch))
    "release-v".data major.data minor.data patch.data []
    (by simp [String.data_append]) (Or.inr (Or.inr rfl)) hM hm hp
    (by omega) (by omega) (by omega) (Or.inl rfl)
  rw [h0, h1, h2]
  exact ⟨rfl, rfl, rfl⟩

/-- The core version `10.20.30` with and without a prefix. -/
theorem extractSemVer_prefix_discarded_witness :
    extractSemVer ("release-v" ++ ("10" ++ "." ++ "20" ++ "." ++ "30"))
        = (some ⟨10, 20, 30, "", ""⟩, none) ∧
      extractSemVer ("v" ++ ("10" ++ "." ++ "20" ++ "." ++ "30"))
        = (some ⟨10, 20, 30, "", ""⟩, none) ∧
      extractSemVer ("10" ++ "." ++ "20" ++ "." ++ "30")
        = (some ⟨10, 20, 30, "", ""⟩, none) :=
  have h := extractSemVer_prefix_discarded "10" "20" "30" (by decide) (by decide) (by decide)
    (by decide) (by decide) (by decide)
  ⟨(h.2.2.trans h.1).trans (by decide), (h.2.1.trans h.1).trans (by decide),
    h.1.trans (by decide)⟩

/-- C9: when `extractSemVer` succeeds, there is a start position `i` such
that a substring of the version grammar starts at `i`, made of a prefix, the
three numeric components between dots and a tail; the returned Major, Minor
and Patch are the decimal values of these components; and no substring of the
grammar starts at a position before `i`. -/
theorem extractSemVer_first_match (s : String) (r : semVerInfo)
    (h : extractSemVer s = (some r, none)) :
    ∃ i pfx major minor patch tail post,
      i ≤ s.data.length ∧
      s.data.drop i = pfx ++ (major ++ '.' :: (minor ++ '.' :: (patch ++ (tail ++ post)))) ∧
      Lang prefixRe pfx ∧ Lang numRe major ∧ Lang numRe minor ∧ Lang numRe patch ∧
      Lang (.seq preRe buildRe) tail ∧
      Lang relRE (pfx ++ (major ++ '.' :: (minor ++ '.' :: (patch ++ tail)))) ∧
      r.Major = decimalValue major ∧ r.Minor = decimalValue minor ∧
      r.Patch = decimalValue patch ∧
      ∀ j, ConformsAt s.data j → i ≤ j := by
  cases hs : search relRE s.data with
  | none =>
    rw [extractSemVer_of_search_none hs] at h
    simp at h
  | some res =>
    rcases res with ⟨x, st⟩
    rw [extractSemVer_of_search_some hs] at h
    obtain ⟨i, hi, hx, hm, hbefore⟩ := search_some hs
    have hdet : det relRE ⟨x, []⟩ = some st := by rw [← matchAt_relRE]; exact hm
    obtain ⟨pfx, M, m, p, tail, hl, hpfx, hM, hm', hp, htail, h2, h3, h4, _⟩ :=
      det_relRE_anatomy hdet
    obtain ⟨_, _, _, hr⟩ := ofCaps_inv h (by rw [h2]; exact hM) (by rw [h3]; exact hm')
      (by rw [h4]; exact hp)
    refine ⟨i, pfx, M, m, p, tail, st.rest, hi, by rw [← hx]; exact hl, hpfx,
      lang_of_isNumeral hM, lang_of_isNumeral hm', lang_of_isNumeral hp, htail,
      lang_relRE_of hpfx hM hm' hp htail, ?_, ?_, ?_, ?_⟩
    · rw [hr, h2]
    · rw [hr, h3]
    · rw [hr, h4]
    · intro j hj
      by_contra hlt
      obtain ⟨w, post, hdrop, hw, _⟩ := hj
      exact matchAt_none (hbefore j (by omega)) w post hdrop hw

/-- C9, witness: in `x1.2.3 and 4.5.6` the version `1.2.3` is returned. -/
theorem extractSemVer_first_match_witness :
    extractSemVer "x1.2.3 and 4.5.6" = (some ⟨1, 2, 3, "", ""⟩, none) ∧
    ∃ i pfx major minor patch tail post,
      i ≤ "x1.2.3 and 4.5.6".data.length ∧
      "x1.2.3 and 4.5.6".data.drop i
        = pfx ++ (major ++ '.' :: (minor ++ '.' :: (patch ++ (tail ++ post)))) ∧
      Lang prefixRe pfx ∧ Lang numRe major ∧ Lang numRe minor ∧ Lang numRe patch ∧
      Lang (.seq preRe buildRe) tail ∧
      Lang relRE (pfx ++ (major ++ '.' :: (minor ++ '.' :: (patch ++ tail)))) ∧
      (1 : Nat) = decimalValue major ∧ (2 : Nat) = decimalValue minor ∧
      (3 : Nat) = decimalValue patch ∧
      ∀ j, ConformsAt "x1.2.3 and 4.5.6".data j → i ≤ j :=
  ⟨by decide, extractSemVer_first_match "x1.2.3 and 4.5.6" ⟨1, 2, 3, "", ""⟩ (by decide)⟩

/-- C5: when `extractSemVer s` succeeds with `r`, the extraction from the
version text that `extract` builds from `r` succeeds and returns the Major,
Minor, Patch and PreRelease of `r`, with an empty Build. -/
theorem extractSemVer_roundtrip (s : String) (r : semVerInfo)
    (h : extractSemVer s = (some r, none)) :
    extractSemVer (versionOf r) =
      (some
        { Major := r.Major
          Minor := r.Minor
          Patch := r.Patch
          PreRelease := r.PreRelease
          Build := "" }, none) := by
  cases hs : search relRE s.data with
  | none =>
    rw [extractSemVer_of_search_none hs] at h
    simp at h
  | some res =>
    rcases res with ⟨x, st⟩
    rw [extractSemVer_of_search_some hs] at h
    obtain ⟨i, hi, hx, hm, _⟩ := search_some hs
    have hdet : det relRE ⟨x, []⟩ = some st := by rw [← matchAt_relRE]; exact hm
    obtain ⟨pfx, M, m, p, tail, _, _, hM, hm', hp, _, h2, h3, h4, h6⟩ :=
      det_relRE_anatomy hdet
    obtain ⟨bM, bm, bp, hr⟩ := ofCaps_inv h (by rw [h2]; exact hM) (by rw [h3]; exact hm')
      (by rw [h4]; exact hp)
    simp only [h2, h3, h4] at bM bm bp hr
    subst hr
    rcases h6 with h6 | h6
    · have hv : (versionOf
          { Major := decimalValue M, Minor := decimalValue m, Patch := decimalValue p,
            PreRelease := String.mk (capture st.caps 6),
            Build := String.mk (capture st.caps 9) }).data
          = ['v'] ++ (M ++ '.' :: (m ++ '.' :: (p ++ []))) := by
        simp [versionOf, h6, formatUint_value hM, formatUint_value hm', formatUint_value hp,
          String.data_append]
      rw [extractSemVer_core hv (Or.inr (Or.inl rfl)) hM hm' hp bM bm bp (Or.inl rfl)]
      simp [h6]
    · have hne : capture st.caps 6 ≠ [] := by
        intro h0; rw [h0] at h6; cases h6
      have hne' : (String.mk (capture st.caps 6)) ≠ "" := by
        intro h0
        apply hne
        have := congrArg String.data h0
        simpa using this
      have hv : (versionOf
          { Major := decimalValue M, Minor := decimalValue m, Patch := decimalValue p,
            PreRelease := String.mk (capture st.caps 6),
            Build := String.mk (capture st.caps 9) }).data
          = ['v'] ++ (M ++ '.' :: (m ++ '.' :: (p ++ '-' :: capture st.caps 6))) := by
        simp [versionOf, hne', formatUint_value hM, formatUint_value hm',
          formatUint_value hp, String.data_append]
      rw [extractSemVer_core hv (Or.inr (Or.inl rfl)) hM hm' hp bM bm bp
        (Or.inr ⟨_, h6, rfl⟩)]
      simp

/-- C5, witness: the archive name of C6, whose canonical version text is
parsed back to the same numbers and pre-release. -/
theorem extractSemVer_roundtrip_witness :
    extractSemVer "app-1.2.3-beta.2+exp.sha.5114f85.tar.gz"
      = (some ⟨1, 2, 3, "beta", "+exp.sha.5114f85.tar.gz"⟩, none) ∧
    extractSemVer (versionOf ⟨1, 2, 3, "beta", "+exp.sha.5114f85.tar.gz"⟩) =
      (some
        { Major := 1
          Minor := 2
          Patch := 3
          PreRelease := "beta"
          Build := "" }, none) :=
  ⟨by decide,
    extractSemVer_roundtrip "app-1.2.3-beta.2+exp.sha.5114f85.tar.gz"
      ⟨1, 2, 3, "beta", "+exp.sha.5114f85.tar.gz"⟩ (by decide)⟩

/-- C3, amended: for a bare input `major.minor.patch` of three non-empty
digit sequences in which the minor number has a leading zero, `extractSemVer`
fails with the error of an input without a version. -/
theorem extractSemVer_minor_leading_zero (major minor patch : String)
    (hM : isDigits major.data = true) (hm : isDigits minor.data = true)
    (hp : isDigits patch.data = true) (hz : hasLeadingZero minor.data = true) :
    extractSemVer (major ++ "." ++ minor ++ "." ++ patch) =
      (none, some (.errorf versionFormat (major ++ "." ++ minor ++ "." ++ patch))) := by
  apply extractSemVer_of_search_none
  apply search_none_of_not_contains
  rintro ⟨i, w, post, hdrop, hl, _⟩
  obtain ⟨pfx, M, m, p, tail, hw, hpfx, hMn, hmn, _, _⟩ := lang_relRE hl
  have hdata : (major ++ "." ++ minor ++ "." ++ patch).data
      = major.data ++ '.' :: (minor.data ++ '.' :: patch.data) := by
    simp [String.data_append]
  have hsplit := List.take_append_drop i (major ++ "." ++ minor ++ "." ++ patch).data
  rw [hdrop, hw, hdata] at hsplit
  have heq : major.data ++ '.' :: (minor.data ++ '.' :: patch.data)
      = (List.take i (major.data ++ '.' :: (minor.data ++ '.' :: patch.data)) ++ pfx ++ M)
        ++ '.' :: (m ++ '.' :: (p ++ tail ++ post)) :=
    hsplit.symm.trans (by simp)
  have hB := between_dots (no_dot_of_digits (isDigits_all hM))
    (no_dot_of_digits (isDigits_all hm)) (no_dot_of_digits (isDigits_all hp))
    (no_dot_of_digits (isNumeral_digits hmn).2) heq
  rw [hB] at hz
  have := not_isNumeral_of_leadingZero hz
  rw [hmn] at this
  cases this

/-- C3, witness: the bare input `1.02.3`. -/
theorem extractSemVer_minor_leading_zero_witness :
    extractSemVer ("1" ++ "." ++ "02" ++ "." ++ "3") =
      (none, some (.errorf versionFormat ("1" ++ "." ++ "02" ++ "." ++ "3"))) :=
  extractSemVer_minor_leading_zero "1" "02" "3" (by decide) (by decide) (by decide)
    (by decide)

end Dcrinstall
